import Mathlib

/-!
Verification of the deterministic pipeline engine of this repository
(source files src/pipeline/engine.py and src/pipeline/renderer.py).

The Python code is shallowly embedded as executable Lean definitions:

* Python floats are modelled as exact rationals; Python ints as Int/Nat.
* A Python dict is an insertion-ordered association list with unique keys
  (dictGet / dictInsert / dictKeys below follow dict lookup, assignment and
  key iteration).
* Two aspects of the Python runtime appear as explicit function parameters:
  - pyhash : String → ℤ models the builtin hash on str values, used by
    DeterministicRandom.get_rng to derive a per-key generator seed.  CPython
    randomizes this hash per process (PYTHONHASHSEED), so no fixed Lean
    function may stand for it; theorems quantify over it.
  - mt : ℕ → ℕ → ℚ models the Mersenne-Twister stream of random.Random:
    mt s n is the n-th value of random() drawn from random.Random(s).
    Per the Python documentation random() returns a float in [0, 1);
    theorems that need this range take it as a hypothesis.
* The write-only local processed_tasks of _execute_tasks (never read by the
  code) is not modelled.  The transient RUNNING status that _execute_task
  assigns and immediately overwrites is likewise invisible in the final
  TaskResult and is not modelled as an intermediate state.
-/

namespace PipelineSpec

/-- Lookup in a Python dict modelled as an insertion-ordered association list
(first matching key wins; keys are unique by construction). -/
def dictGet {α : Type} : List (String × α) → String → Option α
  | [], _ => none
  | p :: m, k => if p.1 = k then some p.2 else dictGet m k

/-- Python dict assignment: overwrite the value in place if the key exists,
otherwise append the new binding at the end (dict insertion order). -/
def dictInsert {α : Type} : List (String × α) → String → α → List (String × α)
  | [], k, v => [(k, v)]
  | p :: m, k, v => if p.1 = k then (k, v) :: m else p :: dictInsert m k v

/-- Keys of a modelled dict, in insertion order. -/
def dictKeys {α : Type} (m : List (String × α)) : List String :=
  m.map Prod.fst

/-- Python code-point comparison of two character lists (the semantics of
str comparison, used by sorted()). -/
def charListLe : List Char → List Char → Bool
  | [], _ => true
  | _ :: _, [] => false
  | c :: cs, d :: ds =>
    if c.toNat < d.toNat then true
    else if d.toNat < c.toNat then false
    else charListLe cs ds

/-- Python string comparison a <= b, by code points. -/
def strLe (a b : String) : Bool :=
  charListLe a.data b.data

/-- Insert a name into an already sorted list (helper for sortNames). -/
def insertSorted (n : String) : List String → List String
  | [] => [n]
  | m :: rest => if strLe n m then n :: m :: rest else m :: insertSorted n rest

/-- The Python builtin sorted() on a collection of names: insertion sort by
code-point string comparison. -/
def sortNames : List String → List String
  | [] => []
  | n :: rest => insertSorted n (sortNames rest)

/-- TaskStatus enum of engine.py. -/
inductive TaskStatus where
  | pending
  | running
  | completed
  | failed
deriving DecidableEq

/-- TaskResult dataclass of engine.py. -/
structure TaskResult where
  task_name : String
  status : TaskStatus
  start_time : Option ℚ := none
  end_time : Option ℚ := none
  error : Option String := none
  duration : ℚ := 0
deriving DecidableEq

/-- Task dataclass of engine.py.  The status field keeps its default value
PENDING: the code never assigns to it (statuses live in TaskResult). -/
structure Task where
  name : String
  dependencies : List String
  execution_time : ℚ
  failure_rate : ℚ := 0
  status : TaskStatus := TaskStatus.pending
deriving DecidableEq

/-- One record appended by DLQSystem.add_failure.  The optional context
argument of add_failure is never passed by the engine, so no record carries
a context key. -/
structure DLQEntry where
  task : String
  reason : String
  timestamp : ℚ
deriving DecidableEq

/-- ExecutionContext dataclass of engine.py. -/
structure ExecutionContext where
  seed : ℤ
  task_results : List (String × TaskResult) := []
  execution_order : List String := []
  dlq : List DLQEntry := []
deriving DecidableEq

/-- ExecutionContext.is_task_completed. -/
def ExecutionContext.is_task_completed (c : ExecutionContext) (task_name : String) : Bool :=
  match dictGet c.task_results task_name with
  | some result => decide (result.status = TaskStatus.completed)
  | none => false

/-- ExecutionContext.is_task_failed. -/
def ExecutionContext.is_task_failed (c : ExecutionContext) (task_name : String) : Bool :=
  match dictGet c.task_results task_name with
  | some result => decide (result.status = TaskStatus.failed)
  | none => false

/-- ExecutionContext.can_execute_task: all dependencies present and completed. -/
def ExecutionContext.can_execute_task (c : ExecutionContext) (task : Task) : Bool :=
  task.dependencies.all fun dep =>
    match dictGet c.task_results dep with
    | none => false
    | some _ => c.is_task_completed dep

/-- ExecutionContext.clone: in a pure model a field-by-field copy is the
value itself (there is no aliasing to observe). -/
def ExecutionContext.clone (c : ExecutionContext) : ExecutionContext :=
  c

/-- State of one random.Random instance: the seed it was constructed with and
how many values have been drawn from its stream so far. -/
structure PyRandom where
  rngSeed : ℕ
  drawn : ℕ
deriving DecidableEq

/-- The rng.random() call: returns the next value of the Mersenne-Twister
stream (modelled by the parameter mt) and advances the instance. -/
def PyRandom.random (mt : ℕ → ℕ → ℚ) (r : PyRandom) : ℚ × PyRandom :=
  (mt r.rngSeed r.drawn, { r with drawn := r.drawn + 1 })

/-- DeterministicRandom of engine.py: the run seed plus the per-context cache
of random.Random instances (the states dict). -/
structure DeterministicRandom where
  seed : ℤ
  states : List (String × PyRandom)
deriving DecidableEq

/-- DeterministicRandom.get_rng: return the cached generator for a context
key, lazily creating it with seed (self.seed + hash(context)) % 2**32.
Returns the generator together with the updated cache. -/
def DeterministicRandom.get_rng (pyhash : String → ℤ) (g : DeterministicRandom)
    (context : String) : PyRandom × DeterministicRandom :=
  match dictGet g.states context with
  | some r => (r, g)
  | none =>
    let context_seed : ℕ := ((g.seed + pyhash context) % (2 ^ 32 : ℤ)).toNat
    let r : PyRandom := { rngSeed := context_seed, drawn := 0 }
    (r, { g with states := dictInsert g.states context r })

/-- DLQSystem of engine.py. -/
structure DLQSystem where
  failures : List DLQEntry
  seed : ℤ
  counter : ℕ
deriving DecidableEq

/-- The fixed epsilon of the deterministic DLQ timestamps (the literal 0.001
of engine.py, as an exact rational). -/
def epsilonTS : ℚ :=
  mkRat 1 1000

/-- DLQSystem.add_failure: append one entry with deterministic timestamp
seed + counter * 0.001 and bump the counter. -/
def DLQSystem.add_failure (d : DLQSystem) (task_name reason : String) : DLQSystem :=
  let deterministic_timestamp : ℚ := (d.seed : ℚ) + (d.counter : ℚ) * epsilonTS
  { failures := d.failures ++ [{ task := task_name, reason := reason,
                                 timestamp := deterministic_timestamp }],
    seed := d.seed,
    counter := d.counter + 1 }

/-- DLQSystem.get_failures: returns a copy of the failure list (the copy is
the value itself in a pure model). -/
def DLQSystem.get_failures (d : DLQSystem) : List DLQEntry :=
  d.failures

/-- External renderer collaborator: three hooks which may raise (modelled by
Except).  The engine never consumes a hook result beyond catching errors. -/
structure Renderer where
  task_started : String → Except String Unit
  task_completed : String → Except String Unit
  task_failed : String → Except String Unit

/-- ConsoleRenderer of renderer.py: raises iff fail_on_task matches the task
name.  Console printing is I/O and outside the model (its inner try/except
only toggles the enabled flag and never escapes). -/
structure ConsoleRenderer where
  enabled : Bool := true
  fail_on_task : Option String := none
deriving DecidableEq

/-- ConsoleRenderer.task_started. -/
def ConsoleRenderer.task_started (r : ConsoleRenderer) (task_name : String) :
    Except String Unit :=
  if r.fail_on_task = some task_name then Except.error "Intentional renderer failure"
  else Except.ok ()

/-- ConsoleRenderer.task_completed. -/
def ConsoleRenderer.task_completed (r : ConsoleRenderer) (task_name : String) :
    Except String Unit :=
  if r.fail_on_task = some task_name then Except.error "Intentional renderer failure"
  else Except.ok ()

/-- ConsoleRenderer.task_failed. -/
def ConsoleRenderer.task_failed (r : ConsoleRenderer) (task_name : String) :
    Except String Unit :=
  if r.fail_on_task = some task_name then Except.error "Intentional renderer failure"
  else Except.ok ()

/-- View of a ConsoleRenderer as the abstract collaborator. -/
def ConsoleRenderer.toRenderer (r : ConsoleRenderer) : Renderer :=
  { task_started := r.task_started,
    task_completed := r.task_completed,
    task_failed := r.task_failed }

/-- One task entry of the declarative config (engine._parse_config reads the
keys with these defaults: dependencies [], execution_time 1.0,
failure_rate 0.0). -/
structure TaskConfig where
  name : String
  dependencies : Option (List String) := none
  execution_time : Option ℚ := none
  failure_rate : Option ℚ := none

/-- The declarative run configuration (seed defaults to 42 in run()). -/
structure Config where
  seed : Option ℤ := none
  tasks : List TaskConfig := []

/-- PipelineEngine object state.  Only self.tasks survives between calls to
run(): random_generator and dlq_system are overwritten at the start of every
run before any use, so they are threaded locally through the run. -/
structure PipelineEngine where
  tasks : List (String × Task)

/-- PipelineEngine._parse_config: fold the declared tasks into self.tasks via
add_task (dict assignment, overwriting duplicates by name). -/
def parseConfig (existing : List (String × Task)) (config : Config) :
    List (String × Task) :=
  config.tasks.foldl
    (fun tasks task_config =>
      dictInsert tasks task_config.name
        { name := task_config.name,
          dependencies := task_config.dependencies.getD [],
          execution_time := task_config.execution_time.getD 1,
          failure_rate := task_config.failure_rate.getD 0,
          status := TaskStatus.pending })
    existing

/-- The dependency scan of one task in _execute_tasks (the for dep loop):
returns (can_execute, missing_deps, failed_deps), each list in dependency
order.  A dependency absent from the store goes to missing_deps; a present
but not completed dependency clears can_execute and, when it has a FAILED
result, goes to failed_deps. -/
def depScan (tasks : List (String × Task)) (ctx : ExecutionContext) :
    List String → Bool × List String × List String
  | [] => (true, [], [])
  | dep :: rest =>
    let r := depScan tasks ctx rest
    match dictGet tasks dep with
    | none => (false, dep :: r.2.1, r.2.2)
    | some _ =>
      if ctx.is_task_completed dep then r
      else if ctx.is_task_failed dep then (false, r.2.1, dep :: r.2.2)
      else (false, r.2.1, r.2.2)

/-- Reason string for a missing-dependency DLQ entry. -/
def missingMsg (deps : List String) : String :=
  "Missing dependencies: " ++ String.intercalate ", " deps

/-- Reason string for a failed-dependency DLQ entry. -/
def failedMsg (deps : List String) : String :=
  "Failed dependencies: " ++ String.intercalate ", " deps

/-- Reason string used for every task flushed on deadlock. -/
def circularMsg : String :=
  "Circular dependency or unresolvable dependencies"

/-- Outcome of classifying one name in a scheduling round. -/
inductive Classify where
  | blocked (reason : String)
  | frontier
  | waiting
deriving DecidableEq

/-- Classification of a single remaining task in _execute_tasks: blocked with
a missing- or failed-dependency reason (checked in that order), executable
(frontier), or still waiting on pending dependencies.  The none branch is
unreachable: the scheduler only classifies names present in the store. -/
def classifyName (tasks : List (String × Task)) (ctx : ExecutionContext)
    (task_name : String) : Classify :=
  match dictGet tasks task_name with
  | none => Classify.waiting
  | some task =>
    let scan := depScan tasks ctx task.dependencies
    if scan.2.1 ≠ [] then Classify.blocked (missingMsg scan.2.1)
    else if scan.2.2 ≠ [] then Classify.blocked (failedMsg scan.2.2)
    else if scan.1 then Classify.frontier
    else Classify.waiting

/-- The classification pass of one round of _execute_tasks: visit the sorted
snapshot of remaining names; record blocked tasks in the DLQ and drop them
from remaining; collect executable names in visit order. -/
def classifyRound (tasks : List (String × Task)) (ctx : ExecutionContext) :
    List String → DLQSystem → List String → List String →
    DLQSystem × List String × List String
  | [], dlq, remaining, executable => (dlq, remaining, executable)
  | task_name :: rest, dlq, remaining, executable =>
    match classifyName tasks ctx task_name with
    | Classify.blocked reason =>
      classifyRound tasks ctx rest (dlq.add_failure task_name reason)
        (remaining.erase task_name) executable
    | Classify.frontier =>
      classifyRound tasks ctx rest dlq remaining (executable ++ [task_name])
    | Classify.waiting =>
      classifyRound tasks ctx rest dlq remaining executable

/-- The deadlock branch of _execute_tasks: move every remaining task to the
DLQ with the generic cyclic/unresolvable reason, in sorted order. -/
def dlqFlush (dlq : DLQSystem) (names : List String) : DLQSystem :=
  names.foldl (fun d n => d.add_failure n circularMsg) dlq

/-- The engine-side guard around a renderer task_started call: invoke the
hook if a renderer is present and discard any outcome, error or not
(renderer failure does not affect the pipeline). -/
def notifyStart (renderer : Option Renderer) (task_name : String) : Unit :=
  match renderer with
  | none => ()
  | some r =>
    match r.task_started task_name with
    | Except.ok _ => ()
    | Except.error _ => ()

/-- The engine-side guard around the renderer task_completed / task_failed
call after execution, again discarding any outcome. -/
def notifyEnd (renderer : Option Renderer) (task_name : String)
    (status : TaskStatus) : Unit :=
  match renderer with
  | none => ()
  | some r =>
    match (if status = TaskStatus.completed then r.task_completed task_name
           else r.task_failed task_name) with
    | Except.ok _ => ()
    | Except.error _ => ()

/-- PipelineEngine._execute_task: fetch the per-task generator for the key
"{seed}:{name}", draw once, and succeed iff the draw is strictly greater
than the configured failure_rate.  Start/end/duration are deterministic.
The surrounding try/except of the Python code is unreachable in the model:
neither get_rng nor random() raises. -/
def execTask (pyhash : String → ℤ) (mt : ℕ → ℕ → ℚ) (rnd : DeterministicRandom)
    (ctx : ExecutionContext) (task : Task) : TaskResult × DeterministicRandom :=
  let start_time : ℚ := 0
  let key := toString ctx.seed ++ ":" ++ task.name
  let got := rnd.get_rng pyhash key
  let drawn := got.1.random mt
  let rnd2 : DeterministicRandom :=
    { got.2 with states := dictInsert got.2.states key drawn.2 }
  let success : Bool := decide (drawn.1 > task.failure_rate)
  ({ task_name := task.name,
     status := if success then TaskStatus.completed else TaskStatus.failed,
     start_time := some start_time,
     end_time := some (start_time + task.execution_time),
     error := if success then none
              else some "Task failed due to configured failure rate",
     duration := task.execution_time }, rnd2)

/-- The execution pass of one round of _execute_tasks: run the executable
tasks in sorted order; per task, notify the renderer of start (errors
swallowed), execute, record the result and append to execution_order, drop
the name from remaining, then notify completion or failure (errors
swallowed).  The none branch is unreachable: executable names come from the
store. -/
def execRound (pyhash : String → ℤ) (mt : ℕ → ℕ → ℚ)
    (tasks : List (String × Task)) (renderer : Option Renderer) :
    List String → DeterministicRandom → ExecutionContext → List String →
    DeterministicRandom × ExecutionContext × List String
  | [], rnd, ctx, remaining => (rnd, ctx, remaining)
  | task_name :: rest, rnd, ctx, remaining =>
    match dictGet tasks task_name with
    | none => execRound pyhash mt tasks renderer rest rnd ctx remaining
    | some task =>
      let remaining1 := remaining.erase task_name
      let _started := notifyStart renderer task_name
      let executed := execTask pyhash mt rnd ctx task
      let ctx1 : ExecutionContext :=
        { ctx with
          task_results := dictInsert ctx.task_results task_name executed.1,
          execution_order := ctx.execution_order ++ [task_name] }
      let _ended := notifyEnd renderer task_name executed.1.status
      execRound pyhash mt tasks renderer rest executed.2 ctx1 remaining1

/-- State threaded through the while loop of _execute_tasks. -/
structure SchedState where
  rnd : DeterministicRandom
  dlq : DLQSystem
  ctx : ExecutionContext
  remaining : List String

/-- The while loop of _execute_tasks, with an explicit fuel argument (the
loop makes strict progress on remaining every non-final iteration, see
runRoundsF_fuel_irrelevant; callers pass remaining.length + 1, which is
always sufficient).  Stop when remaining is empty; otherwise classify the
sorted snapshot; if nothing is executable, flush all still-remaining tasks
to the DLQ in sorted order and stop (the deadlock break); otherwise execute
the frontier in sorted order and continue. -/
def runRoundsF (pyhash : String → ℤ) (mt : ℕ → ℕ → ℚ)
    (tasks : List (String × Task)) (renderer : Option Renderer) :
    ℕ → SchedState → SchedState
  | 0, s => s
  | fuel + 1, s =>
    if s.remaining = [] then s
    else
      match classifyRound tasks s.ctx (sortNames s.remaining) s.dlq s.remaining [] with
      | (dlq1, remaining1, executable) =>
        if executable = [] then
          { s with dlq := dlqFlush dlq1 (sortNames remaining1), remaining := remaining1 }
        else
          match execRound pyhash mt tasks renderer (sortNames executable)
              s.rnd s.ctx remaining1 with
          | (rnd2, ctx2, remaining2) =>
            runRoundsF pyhash mt tasks renderer fuel
              { rnd := rnd2, dlq := dlq1, ctx := ctx2, remaining := remaining2 }

/-- PipelineEngine._execute_tasks: clone the context, run the scheduling loop
over the full key set of the store, and finally copy the accumulated DLQ
failures into the context. -/
def executeTasks (pyhash : String → ℤ) (mt : ℕ → ℕ → ℚ)
    (tasks : List (String × Task)) (rnd : DeterministicRandom) (dlq : DLQSystem)
    (context : ExecutionContext) (renderer : Option Renderer) : ExecutionContext :=
  let current_context := context.clone
  let s := runRoundsF pyhash mt tasks renderer ((dictKeys tasks).length + 1)
    { rnd := rnd, dlq := dlq, ctx := current_context, remaining := dictKeys tasks }
  { s.ctx with dlq := s.dlq.get_failures }

/-- The summary block of the result report. -/
structure Summary where
  total_tasks : ℕ
  completed_tasks : ℕ
  failed_tasks : ℕ
  dlq_count : ℕ
  total_duration : ℚ
deriving DecidableEq

/-- The serialized result report returned by run(). -/
structure Report where
  summary : Summary
  completed_tasks : List String
  failed_tasks : List String
  dlq : List DLQEntry
  execution_order : List String
  task_durations : List (String × ℚ)
deriving DecidableEq

/-- PipelineEngine._generate_result: pure reduction of the final context into
the report (list comprehensions preserve dict insertion order). -/
def generateResult (tasks : List (String × Task)) (context : ExecutionContext)
    (total_duration : ℚ) : Report :=
  let completed_tasks :=
    (context.task_results.filter
      (fun p => decide (p.2.status = TaskStatus.completed))).map Prod.fst
  let failed_tasks :=
    (context.task_results.filter
      (fun p => decide (p.2.status = TaskStatus.failed))).map Prod.fst
  let task_durations := context.task_results.map (fun p => (p.1, p.2.duration))
  { summary := { total_tasks := tasks.length,
                 completed_tasks := completed_tasks.length,
                 failed_tasks := failed_tasks.length,
                 dlq_count := context.dlq.length,
                 total_duration := total_duration },
    completed_tasks := completed_tasks,
    failed_tasks := failed_tasks,
    dlq := context.dlq,
    execution_order := context.execution_order,
    task_durations := task_durations }

/-- PipelineEngine.run: fresh DeterministicRandom and DLQSystem per run,
parse the config into the persistent self.tasks dict, execute, and report.
Returns the report together with the engine state after the call (only the
tasks dict persists). -/
def PipelineEngine.run (pyhash : String → ℤ) (mt : ℕ → ℕ → ℚ)
    (eng : PipelineEngine) (config : Config) (renderer : Option Renderer) :
    Report × PipelineEngine :=
  let start_time : ℚ := 0
  let seed := config.seed.getD 42
  let random_generator : DeterministicRandom := { seed := seed, states := [] }
  let dlq_system : DLQSystem := { failures := [], seed := seed, counter := 0 }
  let tasks := parseConfig eng.tasks config
  let context : ExecutionContext := { seed := seed }
  let final_context :=
    executeTasks pyhash mt tasks random_generator dlq_system context renderer
  let end_time : ℚ := (final_context.execution_order.length : ℚ) * mkRat 1 10
  (generateResult tasks final_context (end_time - start_time),
   { tasks := tasks })

/-- A run on a freshly constructed engine (PipelineEngine.__init__ starts
with an empty tasks dict), projected to the report. -/
def runFresh (pyhash : String → ℤ) (mt : ℕ → ℕ → ℚ) (config : Config)
    (renderer : Option Renderer) : Report :=
  (PipelineEngine.run pyhash mt { tasks := [] } config renderer).1

/-- The per-task generator seed derived by get_rng for the key
"{seed}:{name}": (seed + hash(key)) % 2**32. -/
def contextSeedFor (pyhash : String → ℤ) (seed : ℤ) (task_name : String) : ℕ :=
  ((seed + pyhash (toString seed ++ ":" ++ task_name)) % (2 ^ 32 : ℤ)).toNat

/-- The single random draw a task receives during a run with the given seed:
the first value of the Mersenne-Twister stream seeded for its key. -/
def taskDraw (pyhash : String → ℤ) (mt : ℕ → ℕ → ℚ) (seed : ℤ)
    (task_name : String) : ℚ :=
  mt (contextSeedFor pyhash seed task_name) 0

/-- The TaskResult _execute_task produces for a task, given its draw. -/
def mkResult (task : Task) (draw : ℚ) : TaskResult :=
  { task_name := task.name,
    status := if decide (draw > task.failure_rate) then TaskStatus.completed
              else TaskStatus.failed,
    start_time := some 0,
    end_time := some (0 + task.execution_time),
    error := if decide (draw > task.failure_rate) then none
             else some "Task failed due to configured failure rate",
    duration := task.execution_time }

/-! ### Association list (Python dict) lemmas -/

theorem dictGet_some_mem {α : Type} {m : List (String × α)} {k : String} {v : α}
    (h : dictGet m k = some v) : (k, v) ∈ m := by
  induction m with
  | nil => simp [dictGet] at h
  | cons p rest ih =>
    by_cases hp : p.1 = k
    · simp only [dictGet, if_pos hp, Option.some.injEq] at h
      subst hp; subst h
      exact List.mem_cons_self p rest
    · simp only [dictGet, if_neg hp] at h
      exact List.mem_cons_of_mem _ (ih h)

theorem dictGet_none_iff {α : Type} {m : List (String × α)} {k : String} :
    dictGet m k = none ↔ k ∉ dictKeys m := by
  induction m with
  | nil => simp [dictGet, dictKeys]
  | cons p rest ih =>
    by_cases hp : p.1 = k
    · simp [dictGet, if_pos hp, dictKeys, hp.symm]
    · simp [dictGet, if_neg hp, dictKeys, ih, dictKeys, Ne.symm hp]

theorem dictGet_mem_keys {α : Type} {m : List (String × α)} {k : String} {v : α}
    (h : dictGet m k = some v) : k ∈ dictKeys m := by
  by_contra hk
  rw [← dictGet_none_iff] at hk
  rw [h] at hk
  exact Option.noConfusion hk

theorem dictGet_isSome_of_mem_keys {α : Type} {m : List (String × α)} {k : String}
    (h : k ∈ dictKeys m) : ∃ v, dictGet m k = some v := by
  cases hv : dictGet m k with
  | none => exact absurd (dictGet_none_iff.mp hv) (fun hn => hn h)
  | some v => exact ⟨v, rfl⟩

theorem dictKeys_dictInsert_mem {α : Type} {m : List (String × α)} {k : String} {v : α}
    (h : k ∈ dictKeys m) : dictKeys (dictInsert m k v) = dictKeys m := by
  induction m with
  | nil => simp [dictKeys] at h
  | cons p rest ih =>
    by_cases hp : p.1 = k
    · simp [dictInsert, if_pos hp, dictKeys, hp]
    · have hk : k ∈ dictKeys rest := by
        simpa [dictKeys, Ne.symm hp] using h
      have hih := ih hk
      simp only [dictKeys] at hih ⊢
      simp [dictInsert, if_neg hp, hih]

theorem dictInsert_of_not_mem {α : Type} {m : List (String × α)} {k : String} {v : α}
    (h : k ∉ dictKeys m) : dictInsert m k v = m ++ [(k, v)] := by
  induction m with
  | nil => simp [dictInsert]
  | cons p rest ih =>
    have hp : p.1 ≠ k := by
      intro hc
      exact h (by simp [dictKeys, hc])
    have hrest : k ∉ dictKeys rest := by
      intro hc
      exact h (by simp [dictKeys]; right; simpa [dictKeys] using hc)
    simp [dictInsert, if_neg hp, ih hrest]

theorem dictGet_dictInsert_self {α : Type} {m : List (String × α)} {k : String} {v : α} :
    dictGet (dictInsert m k v) k = some v := by
  induction m with
  | nil => simp [dictInsert, dictGet]
  | cons p rest ih =>
    by_cases hp : p.1 = k
    · simp [dictInsert, if_pos hp, dictGet]
    · simp [dictInsert, if_neg hp, dictGet, hp, ih]

theorem dictGet_dictInsert_ne {α : Type} {m : List (String × α)} {k k' : String} {v : α}
    (h : k' ≠ k) : dictGet (dictInsert m k v) k' = dictGet m k' := by
  induction m with
  | nil => simp [dictInsert, dictGet, Ne.symm h]
  | cons p rest ih =>
    by_cases hp : p.1 = k
    · simp [dictInsert, if_pos hp, dictGet, Ne.symm h, hp]
    · simp [dictInsert, if_neg hp, dictGet, ih]

theorem mem_dictInsert_elim {α : Type} {m : List (String × α)} {k : String} {v : α}
    {p : String × α} (h : p ∈ dictInsert m k v) : p ∈ m ∨ p = (k, v) := by
  induction m with
  | nil => simpa [dictInsert] using h
  | cons q rest ih =>
    by_cases hq : q.1 = k
    · simp only [dictInsert, if_pos hq] at h
      rcases List.mem_cons.mp h with h | h
      · exact Or.inr h
      · exact Or.inl (List.mem_cons_of_mem _ h)
    · simp only [dictInsert, if_neg hq] at h
      rcases List.mem_cons.mp h with h | h
      · exact Or.inl (by simp [h])
      · rcases ih h with h | h
        · exact Or.inl (List.mem_cons_of_mem _ h)
        · exact Or.inr h

theorem dictKeys_nodup_dictInsert {α : Type} {m : List (String × α)} {k : String} {v : α}
    (h : (dictKeys m).Nodup) : (dictKeys (dictInsert m k v)).Nodup := by
  by_cases hk : k ∈ dictKeys m
  · rw [dictKeys_dictInsert_mem hk]; exact h
  · rw [dictInsert_of_not_mem hk]
    have : dictKeys (m ++ [(k, v)]) = dictKeys m ++ [k] := by simp [dictKeys]
    rw [this]
    simpa [List.nodup_append] using ⟨h, hk⟩

/-- Well-formedness of the task store: each value records its own key as its
name (guaranteed by _parse_config / add_task). -/
def StoreWF (tasks : List (String × Task)) : Prop :=
  ∀ p ∈ tasks, p.2.name = p.1

theorem StoreWF_dictGet {tasks : List (String × Task)} {n : String} {t : Task}
    (hwf : StoreWF tasks) (h : dictGet tasks n = some t) : t.name = n :=
  hwf (n, t) (dictGet_some_mem h)

theorem StoreWF_parseConfig {existing : List (String × Task)} {config : Config}
    (hwf : StoreWF existing) : StoreWF (parseConfig existing config) := by
  unfold parseConfig
  induction config.tasks generalizing existing with
  | nil => simpa using hwf
  | cons tc rest ih =>
    simp only [List.foldl_cons]
    refine ih ?_
    intro p hp
    rcases mem_dictInsert_elim hp with h | h
    · exact hwf p h
    · simp [h]

theorem dictKeys_nodup_parseConfig {existing : List (String × Task)} {config : Config}
    (h : (dictKeys existing).Nodup) : (dictKeys (parseConfig existing config)).Nodup := by
  unfold parseConfig
  induction config.tasks generalizing existing with
  | nil => simpa using h
  | cons tc rest ih =>
    simp only [List.foldl_cons]
    exact ih (dictKeys_nodup_dictInsert h)

/-! ### Sorting lemmas (the Python sorted() model) -/

theorem perm_insertSorted (n : String) (l : List String) :
    List.Perm (insertSorted n l) (n :: l) := by
  induction l with
  | nil => simp [insertSorted]
  | cons m rest ih =>
    simp only [insertSorted]
    by_cases h : strLe n m
    · simp [h]
    · simp only [h, if_false, Bool.false_eq_true]
      exact List.Perm.trans (List.Perm.cons m ih) (List.Perm.swap n m rest)

theorem perm_sortNames (l : List String) : List.Perm (sortNames l) l := by
  induction l with
  | nil => simp [sortNames]
  | cons n rest ih =>
    exact List.Perm.trans (perm_insertSorted n (sortNames rest)) (List.Perm.cons n ih)

theorem mem_sortNames {a : String} {l : List String} : a ∈ sortNames l ↔ a ∈ l :=
  (perm_sortNames l).mem_iff

theorem nodup_sortNames {l : List String} (h : l.Nodup) : (sortNames l).Nodup :=
  ((perm_sortNames l).nodup_iff).mpr h

theorem sortNames_ne_nil {l : List String} (h : l ≠ []) : sortNames l ≠ [] := by
  intro hc
  have := (perm_sortNames l).length_eq
  rw [hc] at this
  exact h (List.eq_nil_of_length_eq_zero this.symm)

/-! ### String lemmas -/

theorem stringDataInj {a b : String} (h : a.data = b.data) : a = b := by
  cases a; cases b; exact congrArg String.mk h

theorem stringAppendLeftCancel {a b c : String} (h : a ++ b = a ++ c) : b = c := by
  have hd : (a ++ b).data = (a ++ c).data := congrArg String.data h
  rw [String.data_append, String.data_append] at hd
  exact stringDataInj (List.append_cancel_left hd)

theorem rngKeyInj {seed : ℤ} {a b : String}
    (h : toString seed ++ ":" ++ a = toString seed ++ ":" ++ b) : a = b :=
  stringAppendLeftCancel h

/-! ### DLQ timestamp invariant -/

/-- The timestamp discipline of DLQSystem: the counter counts the recorded
entries and the i-th entry carries timestamp seed + i * epsilon. -/
def TSInv (d : DLQSystem) : Prop :=
  d.counter = d.failures.length ∧
  ∀ i : ℕ, ∀ hi : i < d.failures.length,
    (d.failures.get ⟨i, hi⟩).timestamp = (d.seed : ℚ) + (i : ℚ) * epsilonTS

theorem listGetAppendLeft {α : Type} (l l' : List α) (i : ℕ) (hi : i < l.length)
    (h2 : i < (l ++ l').length) : (l ++ l').get ⟨i, h2⟩ = l.get ⟨i, hi⟩ := by
  induction l generalizing i with
  | nil => exact absurd hi (by simp)
  | cons a rest ih =>
    cases i with
    | zero => rfl
    | succ j => exact ih j (Nat.lt_of_succ_lt_succ hi) (by simpa using h2)

theorem listGetSnocLast {α : Type} (l : List α) (a : α)
    (h : l.length < (l ++ [a]).length) : (l ++ [a]).get ⟨l.length, h⟩ = a := by
  induction l with
  | nil => rfl
  | cons b rest ih => exact ih (by simp)

theorem TSInv_add {d : DLQSystem} (h : TSInv d) (t r : String) :
    TSInv (d.add_failure t r) := by
  obtain ⟨hc, hts⟩ := h
  constructor
  · simp [DLQSystem.add_failure, hc]
  · intro i hi
    simp only [DLQSystem.add_failure] at hi ⊢
    by_cases hlt : i < d.failures.length
    · rw [listGetAppendLeft d.failures _ i hlt hi]
      exact hts i hlt
    · have hieq : i = d.failures.length := by
        have : i < d.failures.length + 1 := by simpa using hi
        omega
      subst hieq
      rw [listGetSnocLast d.failures _ hi]
      simp [hc]

theorem TSInv_seed_add {d : DLQSystem} (t r : String) :
    (d.add_failure t r).seed = d.seed := rfl

theorem TSInv_flush {d : DLQSystem} (h : TSInv d) (names : List String) :
    TSInv (dlqFlush d names) := by
  induction names generalizing d with
  | nil => simpa [dlqFlush] using h
  | cons n rest ih =>
    simp only [dlqFlush, List.foldl_cons]
    exact ih (TSInv_add h n circularMsg)

/-! ### Dependency scan and classification lemmas -/

theorem not_failed_of_completed {c : ExecutionContext} {d : String}
    (h : c.is_task_completed d = true) : c.is_task_failed d = false := by
  unfold ExecutionContext.is_task_completed at h
  unfold ExecutionContext.is_task_failed
  cases hd : dictGet c.task_results d with
  | none => rfl
  | some r =>
    rw [hd] at h
    have : r.status = TaskStatus.completed := of_decide_eq_true h
    simp [this]

/-! ### Equation lemmas for the dependency scan -/

theorem depScan_cons_none {tasks : List (String × Task)} {ctx : ExecutionContext}
    {dep : String} {rest : List String} (hd : dictGet tasks dep = none) :
    depScan tasks ctx (dep :: rest) =
      (false, dep :: (depScan tasks ctx rest).2.1, (depScan tasks ctx rest).2.2) := by
  simp [depScan, hd]

theorem depScan_cons_completed {tasks : List (String × Task)} {ctx : ExecutionContext}
    {dep : String} {rest : List String} {t : Task} (hd : dictGet tasks dep = some t)
    (hc : ctx.is_task_completed dep = true) :
    depScan tasks ctx (dep :: rest) = depScan tasks ctx rest := by
  simp [depScan, hd, hc]

theorem depScan_cons_failed {tasks : List (String × Task)} {ctx : ExecutionContext}
    {dep : String} {rest : List String} {t : Task} (hd : dictGet tasks dep = some t)
    (hc : ctx.is_task_completed dep = false) (hf : ctx.is_task_failed dep = true) :
    depScan tasks ctx (dep :: rest) =
      (false, (depScan tasks ctx rest).2.1, dep :: (depScan tasks ctx rest).2.2) := by
  simp [depScan, hd, hc, hf]

theorem depScan_cons_pending {tasks : List (String × Task)} {ctx : ExecutionContext}
    {dep : String} {rest : List String} {t : Task} (hd : dictGet tasks dep = some t)
    (hc : ctx.is_task_completed dep = false) (hf : ctx.is_task_failed dep = false) :
    depScan tasks ctx (dep :: rest) =
      (false, (depScan tasks ctx rest).2.1, (depScan tasks ctx rest).2.2) := by
  simp [depScan, hd, hc, hf]

theorem depScan_missing_eq (tasks : List (String × Task)) (ctx : ExecutionContext)
    (deps : List String) :
    (depScan tasks ctx deps).2.1 = deps.filter (fun d => (dictGet tasks d).isNone) := by
  induction deps with
  | nil => rfl
  | cons dep rest ih =>
    cases hd : dictGet tasks dep with
    | none => rw [depScan_cons_none hd]; simp [List.filter_cons, hd, ih]
    | some t =>
      cases hc : ctx.is_task_completed dep with
      | true => rw [depScan_cons_completed hd hc]; simp [List.filter_cons, hd, ih]
      | false =>
        cases hf : ctx.is_task_failed dep with
        | true => rw [depScan_cons_failed hd hc hf]; simp [List.filter_cons, hd, ih]
        | false => rw [depScan_cons_pending hd hc hf]; simp [List.filter_cons, hd, ih]

theorem depScan_failed_mem {tasks : List (String × Task)} {ctx : ExecutionContext}
    {deps : List String} {d : String} (h : d ∈ (depScan tasks ctx deps).2.2) :
    d ∈ deps ∧ ctx.is_task_failed d = true := by
  induction deps with
  | nil => simp [depScan] at h
  | cons dep rest ih =>
    cases hd : dictGet tasks dep with
    | none =>
      rw [depScan_cons_none hd] at h
      obtain ⟨h1, h2⟩ := ih h
      exact ⟨List.mem_cons_of_mem _ h1, h2⟩
    | some t =>
      cases hc : ctx.is_task_completed dep with
      | true =>
        rw [depScan_cons_completed hd hc] at h
        obtain ⟨h1, h2⟩ := ih h
        exact ⟨List.mem_cons_of_mem _ h1, h2⟩
      | false =>
        cases hf : ctx.is_task_failed dep with
        | true =>
          rw [depScan_cons_failed hd hc hf] at h
          rcases List.mem_cons.mp h with h | h
          · subst h; exact ⟨List.mem_cons_self _ _, hf⟩
          · obtain ⟨h1, h2⟩ := ih h
            exact ⟨List.mem_cons_of_mem _ h1, h2⟩
        | false =>
          rw [depScan_cons_pending hd hc hf] at h
          obtain ⟨h1, h2⟩ := ih h
          exact ⟨List.mem_cons_of_mem _ h1, h2⟩

theorem depScan_can_iff (tasks : List (String × Task)) (ctx : ExecutionContext)
    (deps : List String) :
    (depScan tasks ctx deps).1 = true ↔
      ∀ d ∈ deps, (∃ t, dictGet tasks d = some t) ∧ ctx.is_task_completed d = true := by
  induction deps with
  | nil => simp [depScan]
  | cons dep rest ih =>
    cases hd : dictGet tasks dep with
    | none =>
      rw [depScan_cons_none hd]
      constructor
      · intro h; exact Bool.noConfusion h
      · intro h
        obtain ⟨⟨t, ht⟩, _⟩ := h dep (List.mem_cons_self _ _)
        rw [hd] at ht
        exact Option.noConfusion ht
    | some t =>
      cases hc : ctx.is_task_completed dep with
      | true =>
        rw [depScan_cons_completed hd hc, ih]
        constructor
        · intro h d hdm
          rcases List.mem_cons.mp hdm with h1 | h1
          · subst h1; exact ⟨⟨t, hd⟩, hc⟩
          · exact h d h1
        · intro h d hdm
          exact h d (List.mem_cons_of_mem _ hdm)
      | false =>
        cases hf : ctx.is_task_failed dep with
        | true =>
          rw [depScan_cons_failed hd hc hf]
          constructor
          · intro h; exact Bool.noConfusion h
          · intro h
            obtain ⟨_, hcm⟩ := h dep (List.mem_cons_self _ _)
            rw [hc] at hcm
            exact Bool.noConfusion hcm
        | false =>
          rw [depScan_cons_pending hd hc hf]
          constructor
          · intro h; exact Bool.noConfusion h
          · intro h
            obtain ⟨_, hcm⟩ := h dep (List.mem_cons_self _ _)
            rw [hc] at hcm
            exact Bool.noConfusion hcm

theorem depScan_true_failed_nil {tasks : List (String × Task)} {ctx : ExecutionContext}
    {deps : List String} (h : (depScan tasks ctx deps).1 = true) :
    (depScan tasks ctx deps).2.2 = [] := by
  cases hf : (depScan tasks ctx deps).2.2 with
  | nil => rfl
  | cons d rest =>
    have hd : d ∈ (depScan tasks ctx deps).2.2 := by
      rw [hf]; exact List.mem_cons_self _ _
    obtain ⟨hdm, hfail⟩ := depScan_failed_mem hd
    obtain ⟨_, hcomp⟩ := (depScan_can_iff tasks ctx deps).mp h d hdm
    rw [not_failed_of_completed hcomp] at hfail
    exact Bool.noConfusion hfail

theorem depScan_true_missing_nil {tasks : List (String × Task)} {ctx : ExecutionContext}
    {deps : List String} (h : (depScan tasks ctx deps).1 = true) :
    (depScan tasks ctx deps).2.1 = [] := by
  rw [depScan_missing_eq]
  rw [List.filter_eq_nil_iff]
  intro d hdm
  obtain ⟨⟨t, ht⟩, _⟩ := (depScan_can_iff tasks ctx deps).mp h d hdm
  simp [ht]

/-! ### Equation and elimination lemmas for classifyName -/

theorem classifyName_eq_none {tasks : List (String × Task)} {ctx : ExecutionContext}
    {n : String} (hd : dictGet tasks n = none) :
    classifyName tasks ctx n = Classify.waiting := by
  simp [classifyName, hd]

theorem classifyName_eq_some {tasks : List (String × Task)} {ctx : ExecutionContext}
    {n : String} {task : Task} (hd : dictGet tasks n = some task) :
    classifyName tasks ctx n =
      (if (depScan tasks ctx task.dependencies).2.1 ≠ [] then
        Classify.blocked (missingMsg (depScan tasks ctx task.dependencies).2.1)
      else if (depScan tasks ctx task.dependencies).2.2 ≠ [] then
        Classify.blocked (failedMsg (depScan tasks ctx task.dependencies).2.2)
      else if (depScan tasks ctx task.dependencies).1 then Classify.frontier
      else Classify.waiting) := by
  simp [classifyName, hd]

theorem classifyName_frontier_elim {tasks : List (String × Task)} {ctx : ExecutionContext}
    {n : String} (h : classifyName tasks ctx n = Classify.frontier) :
    ∃ task, dictGet tasks n = some task ∧
      ∀ d ∈ task.dependencies,
        (∃ t, dictGet tasks d = some t) ∧ ctx.is_task_completed d = true := by
  cases hd : dictGet tasks n with
  | none => rw [classifyName_eq_none hd] at h; exact Classify.noConfusion h
  | some task =>
    rw [classifyName_eq_some hd] at h
    refine ⟨task, rfl, ?_⟩
    by_cases h1 : (depScan tasks ctx task.dependencies).2.1 ≠ []
    · rw [if_pos h1] at h; exact Classify.noConfusion h
    · rw [if_neg h1] at h
      by_cases h2 : (depScan tasks ctx task.dependencies).2.2 ≠ []
      · rw [if_pos h2] at h; exact Classify.noConfusion h
      · rw [if_neg h2] at h
        cases hcan : (depScan tasks ctx task.dependencies).1 with
        | true => exact (depScan_can_iff tasks ctx task.dependencies).mp hcan
        | false =>
          rw [hcan] at h
          simp only [Bool.false_eq_true, if_false] at h
          exact Classify.noConfusion h

theorem classifyName_frontier_intro {tasks : List (String × Task)} {ctx : ExecutionContext}
    {n : String} {task : Task} (hd : dictGet tasks n = some task)
    (hdep : ∀ d ∈ task.dependencies,
      (∃ t, dictGet tasks d = some t) ∧ ctx.is_task_completed d = true) :
    classifyName tasks ctx n = Classify.frontier := by
  have hcan : (depScan tasks ctx task.dependencies).1 = true :=
    (depScan_can_iff tasks ctx task.dependencies).mpr hdep
  rw [classifyName_eq_some hd]
  rw [if_neg (by simp [depScan_true_missing_nil hcan]),
      if_neg (by simp [depScan_true_failed_nil hcan]), hcan]
  simp

theorem classifyName_missing_intro {tasks : List (String × Task)} (ctx : ExecutionContext)
    {n : String} {task : Task} (hd : dictGet tasks n = some task)
    (hne : task.dependencies.filter (fun d => (dictGet tasks d).isNone) ≠ []) :
    classifyName tasks ctx n =
      Classify.blocked (missingMsg
        (task.dependencies.filter (fun d => (dictGet tasks d).isNone))) := by
  rw [classifyName_eq_some hd]
  have hm := depScan_missing_eq tasks ctx task.dependencies
  rw [← hm] at hne ⊢
  rw [if_pos hne]

theorem classifyName_blocked_elim {tasks : List (String × Task)} {ctx : ExecutionContext}
    {n : String} {r : String} (h : classifyName tasks ctx n = Classify.blocked r) :
    ∃ task, dictGet tasks n = some task ∧
      ((task.dependencies.filter (fun d => (dictGet tasks d).isNone) ≠ [] ∧
        r = missingMsg (task.dependencies.filter (fun d => (dictGet tasks d).isNone))) ∨
       (task.dependencies.filter (fun d => (dictGet tasks d).isNone) = [] ∧
        ∃ f : List String, f ≠ [] ∧ r = failedMsg f ∧
          ∀ d ∈ f, d ∈ task.dependencies ∧ ctx.is_task_failed d = true)) := by
  cases hd : dictGet tasks n with
  | none => rw [classifyName_eq_none hd] at h; exact Classify.noConfusion h
  | some task =>
    rw [classifyName_eq_some hd] at h
    refine ⟨task, rfl, ?_⟩
    have hm := depScan_missing_eq tasks ctx task.dependencies
    by_cases h1 : (depScan tasks ctx task.dependencies).2.1 ≠ []
    · rw [if_pos h1] at h
      left
      rw [← hm]
      have := (Classify.blocked.injEq _ _).mp h.symm
      exact ⟨h1, this⟩
    · rw [if_neg h1] at h
      by_cases h2 : (depScan tasks ctx task.dependencies).2.2 ≠ []
      · rw [if_pos h2] at h
        right
        refine ⟨by rw [← hm]; simpa using h1,
          (depScan tasks ctx task.dependencies).2.2, h2, ?_, ?_⟩
        · exact (Classify.blocked.injEq _ _).mp h.symm
        · intro d hdm
          exact depScan_failed_mem hdm
      · rw [if_neg h2] at h
        cases hcan : (depScan tasks ctx task.dependencies).1 with
        | true =>
          rw [hcan] at h
          simp only [if_true] at h
          exact Classify.noConfusion h
        | false =>
          rw [hcan] at h
          simp only [Bool.false_eq_true, if_false] at h
          exact Classify.noConfusion h

theorem classifyName_not_frontier_of_missing {tasks : List (String × Task)}
    (ctx : ExecutionContext) {n : String} {task : Task}
    (hd : dictGet tasks n = some task)
    (hne : task.dependencies.filter (fun d => (dictGet tasks d).isNone) ≠ []) :
    classifyName tasks ctx n ≠ Classify.frontier := by
  rw [classifyName_missing_intro ctx hd hne]
  exact fun hc => Classify.noConfusion hc

/-! ### Classification pass (classifyRound) lemmas -/

/-- Projection of a DLQ entry to its task and reason pair (timestamps are
tracked separately by TSInv). -/
def entryKey (e : DLQEntry) : String × String :=
  (e.task, e.reason)

/-- The (task, reason) pairs a classification pass appends to the DLQ, in
visit order: one pair per blocked name. -/
def blockedProj (tasks : List (String × Task)) (ctx : ExecutionContext)
    (names : List String) : List (String × String) :=
  names.filterMap fun n =>
    match classifyName tasks ctx n with
    | Classify.blocked r => some (n, r)
    | _ => none

/-- Bool test for a blocked classification. -/
def isBlockedB (tasks : List (String × Task)) (ctx : ExecutionContext)
    (n : String) : Bool :=
  match classifyName tasks ctx n with
  | Classify.blocked _ => true
  | _ => false

theorem blockedProj_nil (tasks : List (String × Task)) (ctx : ExecutionContext) :
    blockedProj tasks ctx [] = [] := rfl

theorem blockedProj_cons (tasks : List (String × Task)) (ctx : ExecutionContext)
    (n : String) (rest : List String) :
    blockedProj tasks ctx (n :: rest) =
      (match classifyName tasks ctx n with
       | Classify.blocked r => [(n, r)]
       | _ => []) ++ blockedProj tasks ctx rest := by
  unfold blockedProj
  rw [List.filterMap_cons]
  cases classifyName tasks ctx n <;> rfl

theorem blockedProj_mem_elim {tasks : List (String × Task)} {ctx : ExecutionContext}
    {names : List String} {t r : String} (h : (t, r) ∈ blockedProj tasks ctx names) :
    t ∈ names ∧ classifyName tasks ctx t = Classify.blocked r := by
  induction names with
  | nil => simp [blockedProj] at h
  | cons n rest ih =>
    rw [blockedProj_cons] at h
    rcases List.mem_append.mp h with h | h
    · cases hc : classifyName tasks ctx n with
      | blocked r0 =>
        rw [hc] at h
        simp only [List.mem_singleton, Prod.mk.injEq] at h
        obtain ⟨rfl, rfl⟩ := h
        exact ⟨List.mem_cons_self _ _, hc⟩
      | frontier => rw [hc] at h; simp at h
      | waiting => rw [hc] at h; simp at h
    · obtain ⟨h1, h2⟩ := ih h
      exact ⟨List.mem_cons_of_mem _ h1, h2⟩

theorem blockedProj_fst (tasks : List (String × Task)) (ctx : ExecutionContext)
    (names : List String) :
    (blockedProj tasks ctx names).map Prod.fst =
      names.filter (isBlockedB tasks ctx) := by
  induction names with
  | nil => rfl
  | cons n rest ih =>
    rw [blockedProj_cons, List.filter_cons]
    cases hc : classifyName tasks ctx n with
    | blocked r => simp [isBlockedB, hc, ih]
    | frontier => simp [isBlockedB, hc, ih]
    | waiting => simp [isBlockedB, hc, ih]

theorem add_failure_failures (d : DLQSystem) (t r : String) :
    (d.add_failure t r).failures =
      d.failures ++ [⟨t, r, (d.seed : ℚ) + (d.counter : ℚ) * epsilonTS⟩] := rfl

theorem classifyRound_failures (tasks : List (String × Task)) (ctx : ExecutionContext)
    (names : List String) (dlq : DLQSystem) (rem ex : List String) :
    ∃ L, (classifyRound tasks ctx names dlq rem ex).1.failures = dlq.failures ++ L ∧
      L.map entryKey = blockedProj tasks ctx names := by
  induction names generalizing dlq rem ex with
  | nil => exact ⟨[], by simp [classifyRound], by simp [blockedProj]⟩
  | cons n rest ih =>
    rw [blockedProj_cons]
    cases hc : classifyName tasks ctx n with
    | blocked r =>
      simp only [classifyRound, hc]
      obtain ⟨L, hL, hproj⟩ := ih (dlq.add_failure n r) (rem.erase n) ex
      refine ⟨⟨n, r, (dlq.seed : ℚ) + (dlq.counter : ℚ) * epsilonTS⟩ :: L, ?_, ?_⟩
      · rw [hL, add_failure_failures]
        simp
      · simp [entryKey, hproj]
    | frontier =>
      simp only [classifyRound, hc]
      obtain ⟨L, hL, hproj⟩ := ih dlq rem (ex ++ [n])
      exact ⟨L, hL, by simp [hproj]⟩
    | waiting =>
      simp only [classifyRound, hc]
      obtain ⟨L, hL, hproj⟩ := ih dlq rem ex
      exact ⟨L, hL, by simp [hproj]⟩

theorem classifyRound_dlq_seed (tasks : List (String × Task)) (ctx : ExecutionContext)
    (names : List String) (dlq : DLQSystem) (rem ex : List String) :
    (classifyRound tasks ctx names dlq rem ex).1.seed = dlq.seed := by
  induction names generalizing dlq rem ex with
  | nil => rfl
  | cons n rest ih =>
    cases hc : classifyName tasks ctx n with
    | blocked r => simp only [classifyRound, hc]; rw [ih]; rfl
    | frontier => simp only [classifyRound, hc]; rw [ih]
    | waiting => simp only [classifyRound, hc]; rw [ih]

theorem classifyRound_ts {tasks : List (String × Task)} {ctx : ExecutionContext}
    (names : List String) {dlq : DLQSystem} (rem ex : List String)
    (h : TSInv dlq) : TSInv (classifyRound tasks ctx names dlq rem ex).1 := by
  induction names generalizing dlq rem ex with
  | nil => exact h
  | cons n rest ih =>
    cases hc : classifyName tasks ctx n with
    | blocked r => simp only [classifyRound, hc]; exact ih _ _ (TSInv_add h n r)
    | frontier => simp only [classifyRound, hc]; exact ih _ _ h
    | waiting => simp only [classifyRound, hc]; exact ih _ _ h

theorem classifyRound_remaining_sublist (tasks : List (String × Task))
    (ctx : ExecutionContext) (names : List String) (dlq : DLQSystem)
    (rem ex : List String) :
    List.Sublist (classifyRound tasks ctx names dlq rem ex).2.1 rem := by
  induction names generalizing dlq rem ex with
  | nil => exact List.Sublist.refl rem
  | cons n rest ih =>
    cases hc : classifyName tasks ctx n with
    | blocked r =>
      simp only [classifyRound, hc]
      exact List.Sublist.trans (ih _ _ _) (List.erase_sublist n rem)
    | frontier => simp only [classifyRound, hc]; exact ih _ _ _
    | waiting => simp only [classifyRound, hc]; exact ih _ _ _

theorem classifyRound_exec (tasks : List (String × Task)) (ctx : ExecutionContext)
    (names : List String) (dlq : DLQSystem) (rem ex : List String) :
    (classifyRound tasks ctx names dlq rem ex).2.2 =
      ex ++ names.filter (fun n => decide (classifyName tasks ctx n = Classify.frontier)) := by
  induction names generalizing dlq rem ex with
  | nil => simp [classifyRound]
  | cons n rest ih =>
    rw [List.filter_cons]
    cases hc : classifyName tasks ctx n with
    | blocked r => simp only [classifyRound, hc]; rw [ih]; simp [hc]
    | frontier => simp only [classifyRound, hc]; rw [ih]; simp [hc]
    | waiting => simp only [classifyRound, hc]; rw [ih]; simp [hc]

theorem classifyRound_mem_remaining {tasks : List (String × Task)}
    {ctx : ExecutionContext} {names : List String} {dlq : DLQSystem}
    {rem ex : List String} {n : String} (hmem : n ∈ rem)
    (hnb : ∀ r, classifyName tasks ctx n ≠ Classify.blocked r) :
    n ∈ (classifyRound tasks ctx names dlq rem ex).2.1 := by
  induction names generalizing dlq rem ex with
  | nil => exact hmem
  | cons m rest ih =>
    cases hc : classifyName tasks ctx m with
    | blocked r =>
      simp only [classifyRound, hc]
      refine ih ?_
      have hne : n ≠ m := by
        intro he
        subst he
        exact hnb r hc
      exact (List.mem_erase_of_ne hne).mpr hmem
    | frontier => simp only [classifyRound, hc]; exact ih hmem
    | waiting => simp only [classifyRound, hc]; exact ih hmem

theorem classifyRound_not_mem_remaining {tasks : List (String × Task)}
    {ctx : ExecutionContext} {names : List String} {dlq : DLQSystem}
    {rem ex : List String} {n : String} {r : String} (hnodup : rem.Nodup)
    (hnames : n ∈ names) (hb : classifyName tasks ctx n = Classify.blocked r) :
    n ∉ (classifyRound tasks ctx names dlq rem ex).2.1 := by
  induction names generalizing dlq rem ex with
  | nil => simp at hnames
  | cons m rest ih =>
    by_cases hm : m = n
    · subst hm
      simp only [classifyRound, hb]
      intro hc
      have hsub := classifyRound_remaining_sublist tasks ctx rest
        (dlq.add_failure m r) (rem.erase m) ex
      exact hnodup.not_mem_erase (hsub.subset hc)
    · have hnames' : n ∈ rest := by
        rcases List.mem_cons.mp hnames with h | h
        · exact absurd h.symm hm
        · exact h
      cases hc : classifyName tasks ctx m with
      | blocked r0 =>
        simp only [classifyRound, hc]
        exact ih (hnodup.erase m) hnames'
      | frontier => simp only [classifyRound, hc]; exact ih hnodup hnames'
      | waiting => simp only [classifyRound, hc]; exact ih hnodup hnames'

/-! ### Result-extension order and monotonicity -/

/-- Context c extends c0: every recorded task result of c0 is still recorded
unchanged in c (results are write-once per key). -/
def ResExt (c0 c : ExecutionContext) : Prop :=
  ∀ n r, dictGet c0.task_results n = some r → dictGet c.task_results n = some r

theorem resExt_refl (c : ExecutionContext) : ResExt c c :=
  fun _ _ h => h

theorem resExt_trans {a b c : ExecutionContext} (h1 : ResExt a b) (h2 : ResExt b c) :
    ResExt a c :=
  fun n r h => h2 n r (h1 n r h)

theorem is_task_completed_mono {c0 c : ExecutionContext} {d : String}
    (hext : ResExt c0 c) (h : c0.is_task_completed d = true) :
    c.is_task_completed d = true := by
  unfold ExecutionContext.is_task_completed at h ⊢
  cases hd : dictGet c0.task_results d with
  | none => rw [hd] at h; exact Bool.noConfusion h
  | some r => rw [hd] at h; rw [hext d r hd]; exact h

theorem is_task_failed_mono {c0 c : ExecutionContext} {d : String}
    (hext : ResExt c0 c) (h : c0.is_task_failed d = true) :
    c.is_task_failed d = true := by
  unfold ExecutionContext.is_task_failed at h ⊢
  cases hd : dictGet c0.task_results d with
  | none => rw [hd] at h; exact Bool.noConfusion h
  | some r => rw [hd] at h; rw [hext d r hd]; exact h

theorem is_task_completed_mem_results {c : ExecutionContext} {d : String}
    (h : c.is_task_completed d = true) :
    ∃ r, dictGet c.task_results d = some r ∧ r.status = TaskStatus.completed := by
  unfold ExecutionContext.is_task_completed at h
  cases hd : dictGet c.task_results d with
  | none => rw [hd] at h; exact Bool.noConfusion h
  | some r =>
    rw [hd] at h
    exact ⟨r, rfl, of_decide_eq_true h⟩

/-! ### List take/append helpers -/

theorem listTakeAppendLeft {α : Type} (l l' : List α) (i : ℕ) (hi : i ≤ l.length) :
    (l ++ l').take i = l.take i := by
  induction l generalizing i with
  | nil =>
    have : i = 0 := Nat.le_zero.mp hi
    subst this; rfl
  | cons a rest ih =>
    cases i with
    | zero => rfl
    | succ j => simp [List.take_succ_cons, ih j (Nat.le_of_succ_le_succ hi)]

/-! ### Single-task execution lemmas -/

theorem dictInsert_dictInsert {α : Type} (m : List (String × α)) (k : String) (v w : α) :
    dictInsert (dictInsert m k v) k w = dictInsert m k w := by
  induction m with
  | nil => simp [dictInsert]
  | cons p rest ih =>
    by_cases hp : p.1 = k
    · simp [dictInsert, hp]
    · simp [dictInsert, hp, ih]

theorem execTask_fresh (pyhash : String → ℤ) (mt : ℕ → ℕ → ℚ) {seed : ℤ}
    {rnd : DeterministicRandom} {ctx : ExecutionContext} {task : Task}
    (hseed : rnd.seed = seed) (hctx : ctx.seed = seed)
    (hfresh : dictGet rnd.states (toString seed ++ ":" ++ task.name) = none) :
    execTask pyhash mt rnd ctx task =
      (mkResult task (taskDraw pyhash mt seed task.name),
       { seed := rnd.seed,
         states := dictInsert rnd.states (toString seed ++ ":" ++ task.name)
           { rngSeed := contextSeedFor pyhash seed task.name, drawn := 1 } }) := by
  unfold execTask DeterministicRandom.get_rng PyRandom.random mkResult taskDraw contextSeedFor
  simp only [hctx, hseed, hfresh]
  simp [dictInsert_dictInsert]

theorem execTask_seed (pyhash : String → ℤ) (mt : ℕ → ℕ → ℚ)
    (rnd : DeterministicRandom) (ctx : ExecutionContext) (task : Task) :
    (execTask pyhash mt rnd ctx task).2.seed = rnd.seed := by
  unfold execTask DeterministicRandom.get_rng
  cases hd : dictGet rnd.states (toString ctx.seed ++ ":" ++ task.name) with
  | none => simp [hd]
  | some r => simp [hd]

/-! ### Execution pass (execRound) lemmas -/

theorem execRound_nil (pyhash : String → ℤ) (mt : ℕ → ℕ → ℚ)
    (tasks : List (String × Task)) (renderer : Option Renderer)
    (rnd : DeterministicRandom) (ctx : ExecutionContext) (rem : List String) :
    execRound pyhash mt tasks renderer [] rnd ctx rem = (rnd, ctx, rem) := rfl

theorem execRound_cons_none (pyhash : String → ℤ) (mt : ℕ → ℕ → ℚ)
    {tasks : List (String × Task)} (renderer : Option Renderer) {n : String}
    (rest : List String) (rnd : DeterministicRandom) (ctx : ExecutionContext)
    (rem : List String) (hd : dictGet tasks n = none) :
    execRound pyhash mt tasks renderer (n :: rest) rnd ctx rem =
      execRound pyhash mt tasks renderer rest rnd ctx rem := by
  simp [execRound, hd]

theorem execRound_cons_some (pyhash : String → ℤ) (mt : ℕ → ℕ → ℚ)
    {tasks : List (String × Task)} (renderer : Option Renderer) {n : String}
    {task : Task} (rest : List String) (rnd : DeterministicRandom)
    (ctx : ExecutionContext) (rem : List String) (hd : dictGet tasks n = some task) :
    execRound pyhash mt tasks renderer (n :: rest) rnd ctx rem =
      execRound pyhash mt tasks renderer rest (execTask pyhash mt rnd ctx task).2
        { ctx with
          task_results := dictInsert ctx.task_results n (execTask pyhash mt rnd ctx task).1,
          execution_order := ctx.execution_order ++ [n] }
        (rem.erase n) := by
  simp [execRound, hd]

theorem execRound_order (pyhash : String → ℤ) (mt : ℕ → ℕ → ℚ)
    (tasks : List (String × Task)) (renderer : Option Renderer)
    (names : List String) (rnd : DeterministicRandom) (ctx : ExecutionContext)
    (rem : List String) :
    (execRound pyhash mt tasks renderer names rnd ctx rem).2.1.execution_order =
      ctx.execution_order ++ names.filter (fun n => (dictGet tasks n).isSome) := by
  induction names generalizing rnd ctx rem with
  | nil => simp [execRound_nil]
  | cons n rest ih =>
    rw [List.filter_cons]
    cases hd : dictGet tasks n with
    | none => rw [execRound_cons_none _ _ _ _ _ _ _ hd]; simp [hd, ih]
    | some task =>
      rw [execRound_cons_some _ _ _ _ _ _ _ hd]
      rw [ih]
      simp [hd]

theorem execRound_remaining_sublist (pyhash : String → ℤ) (mt : ℕ → ℕ → ℚ)
    (tasks : List (String × Task)) (renderer : Option Renderer)
    (names : List String) (rnd : DeterministicRandom) (ctx : ExecutionContext)
    (rem : List String) :
    List.Sublist (execRound pyhash mt tasks renderer names rnd ctx rem).2.2 rem := by
  induction names generalizing rnd ctx rem with
  | nil => exact List.Sublist.refl rem
  | cons n rest ih =>
    cases hd : dictGet tasks n with
    | none => rw [execRound_cons_none _ _ _ _ _ _ _ hd]; exact ih _ _ _
    | some task =>
      rw [execRound_cons_some _ _ _ _ _ _ _ hd]
      exact List.Sublist.trans (ih _ _ _) (List.erase_sublist n rem)

theorem execRound_length_lt (pyhash : String → ℤ) (mt : ℕ → ℕ → ℚ)
    (tasks : List (String × Task)) (renderer : Option Renderer)
    {n : String} {task : Task} (hd : dictGet tasks n = some task) :
    ∀ (names : List String) (rnd : DeterministicRandom) (ctx : ExecutionContext)
      (rem : List String), n ∈ names → n ∈ rem →
      (execRound pyhash mt tasks renderer names rnd ctx rem).2.2.length < rem.length := by
  intro names
  induction names with
  | nil => intro rnd ctx rem hn hr; simp at hn
  | cons m rest ih =>
    intro rnd ctx rem hn hr
    by_cases hm : m = n
    · subst hm
      rw [execRound_cons_some _ _ _ _ _ _ _ hd]
      calc (execRound pyhash mt tasks renderer rest _ _ (rem.erase m)).2.2.length
          ≤ (rem.erase m).length :=
            (execRound_remaining_sublist _ _ _ _ _ _ _ _).length_le
        _ < rem.length := by
            rw [List.length_erase_of_mem hr]
            exact Nat.sub_lt (List.length_pos.mpr (List.ne_nil_of_mem hr)) Nat.one_pos
    · have hn' : n ∈ rest := by
        rcases List.mem_cons.mp hn with h | h
        · exact absurd h.symm hm
        · exact h
      cases hdm : dictGet tasks m with
      | none =>
        rw [execRound_cons_none _ _ _ _ _ _ _ hdm]
        exact ih _ _ _ hn' hr
      | some taskm =>
        rw [execRound_cons_some _ _ _ _ _ _ _ hdm]
        have hr' : n ∈ rem.erase m :=
          (List.mem_erase_of_ne (fun he => hm he.symm)).mpr hr
        calc (execRound pyhash mt tasks renderer rest _ _ (rem.erase m)).2.2.length
            < (rem.erase m).length := ih _ _ _ hn' hr'
          _ ≤ rem.length := (List.erase_sublist m rem).length_le

theorem execRound_results_stable (pyhash : String → ℤ) (mt : ℕ → ℕ → ℚ)
    (tasks : List (String × Task)) (renderer : Option Renderer) {n : String} :
    ∀ (names : List String) (rnd : DeterministicRandom) (ctx : ExecutionContext)
      (rem : List String), n ∉ names →
      dictGet (execRound pyhash mt tasks renderer names rnd ctx rem).2.1.task_results n =
        dictGet ctx.task_results n := by
  intro names
  induction names with
  | nil => intro rnd ctx rem hn; rfl
  | cons m rest ih =>
    intro rnd ctx rem hn
    have hnm : n ≠ m := fun he => hn (he ▸ List.mem_cons_self m rest)
    have hn' : n ∉ rest := fun hc => hn (List.mem_cons_of_mem _ hc)
    cases hd : dictGet tasks m with
    | none => rw [execRound_cons_none _ _ _ _ _ _ _ hd]; exact ih _ _ _ hn'
    | some task =>
      rw [execRound_cons_some _ _ _ _ _ _ _ hd]
      rw [ih _ _ _ hn']
      exact dictGet_dictInsert_ne hnm

/-! ### The execution-side loop invariant -/

/-- Invariant on the execution side of the scheduler state: remaining names
are unique store keys not yet executed; recorded results correspond
one-to-one and in order with execution_order; every executed task had all
its dependencies executed earlier and completed; every recorded result is
exactly what _execute_task produces from the canonical per-task draw; the
rng cache holds exactly the keys of executed tasks. -/
structure CtxInv (pyhash : String → ℤ) (mt : ℕ → ℕ → ℚ)
    (tasks : List (String × Task)) (seed : ℤ) (rnd : DeterministicRandom)
    (ctx : ExecutionContext) (rem : List String) : Prop where
  rem_nodup : rem.Nodup
  rem_sub : ∀ n ∈ rem, n ∈ dictKeys tasks
  res_keys : ctx.task_results.map Prod.fst = ctx.execution_order
  exec_nodup : ctx.execution_order.Nodup
  rem_fresh : ∀ n ∈ rem, n ∉ ctx.execution_order
  exec_sub : ∀ n ∈ ctx.execution_order, n ∈ dictKeys tasks
  gating : ∀ i : ℕ, ∀ hi : i < ctx.execution_order.length, ∀ task : Task,
    dictGet tasks (ctx.execution_order.get ⟨i, hi⟩) = some task →
    ∀ d ∈ task.dependencies, d ∈ ctx.execution_order.take i ∧
      ctx.is_task_completed d = true
  res_val : ∀ n r, dictGet ctx.task_results n = some r →
    ∃ task, dictGet tasks n = some task ∧ r = mkResult task (taskDraw pyhash mt seed n)
  rng_dom : ∀ p ∈ rnd.states, ∃ n ∈ ctx.execution_order, p.1 = toString seed ++ ":" ++ n
  rng_seed : rnd.seed = seed
  ctx_seed : ctx.seed = seed

theorem completed_mem_order {ctx : ExecutionContext} {d : String}
    (hkeys : ctx.task_results.map Prod.fst = ctx.execution_order)
    (h : ctx.is_task_completed d = true) : d ∈ ctx.execution_order := by
  obtain ⟨r, hr, _⟩ := is_task_completed_mem_results h
  have := dictGet_mem_keys hr
  unfold dictKeys at this
  rw [hkeys] at this
  exact this

theorem execRound_preserve (pyhash : String → ℤ) (mt : ℕ → ℕ → ℚ)
    {tasks : List (String × Task)} (renderer : Option Renderer) {seed : ℤ}
    (hwf : StoreWF tasks) (ctx0 : ExecutionContext) :
    ∀ (names : List String) (rnd : DeterministicRandom) (ctx : ExecutionContext)
      (rem : List String),
      CtxInv pyhash mt tasks seed rnd ctx rem →
      ResExt ctx0 ctx →
      names.Nodup →
      (∀ n ∈ names, n ∈ rem) →
      (∀ n ∈ names, classifyName tasks ctx0 n = Classify.frontier) →
      CtxInv pyhash mt tasks seed
          (execRound pyhash mt tasks renderer names rnd ctx rem).1
          (execRound pyhash mt tasks renderer names rnd ctx rem).2.1
          (execRound pyhash mt tasks renderer names rnd ctx rem).2.2 ∧
        ResExt ctx (execRound pyhash mt tasks renderer names rnd ctx rem).2.1 := by
  intro names
  induction names with
  | nil =>
    intro rnd ctx rem hinv hext hnodup hsub hfro
    exact ⟨hinv, resExt_refl ctx⟩
  | cons n rest ih =>
    intro rnd ctx rem hinv hext hnodup hsub hfro
    obtain ⟨task, hd, hdeps⟩ := classifyName_frontier_elim (hfro n (List.mem_cons_self n rest))
    have hname : task.name = n := StoreWF_dictGet hwf hd
    have hn_rem : n ∈ rem := hsub n (List.mem_cons_self n rest)
    have hn_not_order : n ∉ ctx.execution_order := hinv.rem_fresh n hn_rem
    -- the rng cache has no entry for this key yet
    have hkey : dictGet rnd.states (toString seed ++ ":" ++ task.name) = none := by
      cases hk : dictGet rnd.states (toString seed ++ ":" ++ task.name) with
      | none => rfl
      | some p =>
        exfalso
        obtain ⟨m, hm_order, hm_eq⟩ :=
          hinv.rng_dom _ (dictGet_some_mem hk)
        have : task.name = m := rngKeyInj hm_eq
        rw [hname] at this
        subst this
        exact hn_not_order hm_order
    have hexec := execTask_fresh pyhash mt hinv.rng_seed hinv.ctx_seed hkey
    -- results dict has no entry for n yet
    have hres_none : dictGet ctx.task_results n = none := by
      rw [dictGet_none_iff]
      intro hc
      unfold dictKeys at hc
      rw [hinv.res_keys] at hc
      exact hn_not_order hc
    have hres_not_key : n ∉ dictKeys ctx.task_results := dictGet_none_iff.mp hres_none
    rw [execRound_cons_some pyhash mt renderer rest rnd ctx rem hd]
    set res := (execTask pyhash mt rnd ctx task).1 with hres_def
    set rnd2 := (execTask pyhash mt rnd ctx task).2 with hrnd2_def
    set ctx2 : ExecutionContext :=
      { ctx with
        task_results := dictInsert ctx.task_results n res,
        execution_order := ctx.execution_order ++ [n] } with hctx2_def
    have hres_eq : res = mkResult task (taskDraw pyhash mt seed n) := by
      rw [hres_def, hexec, ← hname]
    have hrnd2_eq : rnd2 =
        { seed := rnd.seed,
          states := dictInsert rnd.states (toString seed ++ ":" ++ n)
            { rngSeed := contextSeedFor pyhash seed n, drawn := 1 } } := by
      rw [hrnd2_def, hexec, hname]
    -- one-step extension of the context
    have hstep : ResExt ctx ctx2 := by
      intro m r hm
      have hmn : m ≠ n := by
        intro he
        subst he
        rw [hres_none] at hm
        exact Option.noConfusion hm
      show dictGet (dictInsert ctx.task_results n res) m = some r
      rw [dictGet_dictInsert_ne hmn]
      exact hm
    -- the one-step invariant
    have hinv2 : CtxInv pyhash mt tasks seed rnd2 ctx2 (rem.erase n) := by
      refine ⟨hinv.rem_nodup.erase n, ?_, ?_, ?_, ?_, ?_, ?_, ?_, ?_, ?_, hinv.ctx_seed⟩
      · intro m hm
        exact hinv.rem_sub m ((List.erase_sublist n rem).subset hm)
      · show (dictInsert ctx.task_results n res).map Prod.fst =
          ctx.execution_order ++ [n]
        rw [dictInsert_of_not_mem hres_not_key]
        rw [List.map_append]
        rw [show (ctx.task_results.map Prod.fst) = ctx.execution_order from hinv.res_keys]
        rfl
      · show (ctx.execution_order ++ [n]).Nodup
        refine List.Nodup.append hinv.exec_nodup (List.nodup_singleton n) ?_
        intro x hx hxn
        rw [List.mem_singleton] at hxn
        subst hxn
        exact hn_not_order hx
      · intro m hm
        rw [hinv.rem_nodup.mem_erase_iff] at hm
        obtain ⟨hmn, hm_rem⟩ := hm
        intro hc
        rcases List.mem_append.mp hc with hc | hc
        · exact hinv.rem_fresh m hm_rem hc
        · rw [List.mem_singleton] at hc
          exact hmn hc
      · intro m hm
        rcases List.mem_append.mp hm with hm | hm
        · exact hinv.exec_sub m hm
        · rw [List.mem_singleton] at hm
          subst hm
          exact dictGet_mem_keys hd
      · -- gating
        intro i hi task2 htask2 d hdm
        show d ∈ (ctx.execution_order ++ [n]).take i ∧ ctx2.is_task_completed d = true
        have hlen : (ctx.execution_order ++ [n]).length =
            ctx.execution_order.length + 1 := by simp
        by_cases hilt : i < ctx.execution_order.length
        · rw [listGetAppendLeft ctx.execution_order [n] i hilt hi] at htask2
          obtain ⟨h1, h2⟩ := hinv.gating i hilt task2 htask2 d hdm
          refine ⟨?_, is_task_completed_mono hstep h2⟩
          rw [listTakeAppendLeft ctx.execution_order [n] i (Nat.le_of_lt hilt)]
          exact h1
        · have hieq : i = ctx.execution_order.length := by
            rw [hlen] at hi
            omega
          subst hieq
          rw [listGetSnocLast ctx.execution_order n hi] at htask2
          rw [hd] at htask2
          have htaskeq : task = task2 := Option.some.inj htask2
          subst htaskeq
          obtain ⟨hpres, hcomp0⟩ := hdeps d hdm
          have hcomp : ctx.is_task_completed d = true :=
            is_task_completed_mono hext hcomp0
          refine ⟨?_, is_task_completed_mono hstep hcomp⟩
          rw [listTakeAppendLeft ctx.execution_order [n]
            ctx.execution_order.length (Nat.le_refl _)]
          rw [List.take_length]
          exact completed_mem_order hinv.res_keys hcomp
      · -- res_val
        intro m r hm
        by_cases hmn : m = n
        · subst hmn
          show ∃ t2, dictGet tasks m = some t2 ∧
            r = mkResult t2 (taskDraw pyhash mt seed m)
          have : dictGet (dictInsert ctx.task_results m res) m = some res :=
            dictGet_dictInsert_self
          rw [show dictGet ctx2.task_results m =
              dictGet (dictInsert ctx.task_results m res) m from rfl, this] at hm
          have hr : r = res := (Option.some.inj hm).symm
          exact ⟨task, hd, by rw [hr, hres_eq]⟩
        · have : dictGet ctx2.task_results m = dictGet ctx.task_results m := by
            show dictGet (dictInsert ctx.task_results n res) m = _
            exact dictGet_dictInsert_ne hmn
          rw [this] at hm
          exact hinv.res_val m r hm
      · -- rng_dom
        intro p hp
        rw [hrnd2_eq] at hp
        rcases mem_dictInsert_elim hp with hp | hp
        · obtain ⟨m, hm_order, hm_eq⟩ := hinv.rng_dom p hp
          exact ⟨m, List.mem_append_left _ hm_order, hm_eq⟩
        · refine ⟨n, List.mem_append_right _ (List.mem_singleton_self n), ?_⟩
          rw [hp]
      · rw [hrnd2_eq]
        exact hinv.rng_seed
    have hrest_sub : ∀ m ∈ rest, m ∈ rem.erase n := by
      intro m hm
      have hmn : m ≠ n := by
        intro he
        subst he
        exact (List.nodup_cons.mp hnodup).1 hm
      exact (List.mem_erase_of_ne hmn).mpr (hsub m (List.mem_cons_of_mem _ hm))
    obtain ⟨hfin, hfin_ext⟩ := ih rnd2 ctx2 (rem.erase n) hinv2
      (resExt_trans hext hstep) (List.nodup_cons.mp hnodup).2 hrest_sub
      (fun m hm => hfro m (List.mem_cons_of_mem _ hm))
    exact ⟨hfin, resExt_trans hstep hfin_ext⟩

/-! ### DLQ reason classification and the full loop invariant -/

/-- Every DLQ entry carries one of the three reason shapes the scheduler can
produce: the cyclic/unresolvable flush message, the exact missing-dependency
message listing precisely the dependencies absent from the store, or a
failed-dependency message listing dependencies with FAILED results (only
possible when no dependency is missing). -/
def ReasonSpec (tasks : List (String × Task)) (ctx : ExecutionContext)
    (e : DLQEntry) : Prop :=
  e.reason = circularMsg ∨
  (∃ task, dictGet tasks e.task = some task ∧
    ((task.dependencies.filter (fun d => (dictGet tasks d).isNone) ≠ [] ∧
      e.reason = missingMsg (task.dependencies.filter (fun d => (dictGet tasks d).isNone))) ∨
     (task.dependencies.filter (fun d => (dictGet tasks d).isNone) = [] ∧
      ∃ f : List String, f ≠ [] ∧ e.reason = failedMsg f ∧
        ∀ d ∈ f, d ∈ task.dependencies ∧ ctx.is_task_failed d = true)))

theorem reasonSpec_mono {tasks : List (String × Task)} {ctx ctx' : ExecutionContext}
    {e : DLQEntry} (hext : ResExt ctx ctx') (h : ReasonSpec tasks ctx e) :
    ReasonSpec tasks ctx' e := by
  rcases h with h | ⟨task, hd, h⟩
  · exact Or.inl h
  · refine Or.inr ⟨task, hd, ?_⟩
    rcases h with h | ⟨hnil, f, hf, hr, hmem⟩
    · exact Or.inl h
    · exact Or.inr ⟨hnil, f, hf, hr,
        fun d hdm => ⟨(hmem d hdm).1, is_task_failed_mono hext (hmem d hdm).2⟩⟩

/-- Full invariant of the scheduling loop state. -/
structure Inv (pyhash : String → ℤ) (mt : ℕ → ℕ → ℚ)
    (tasks : List (String × Task)) (seed : ℤ) (s : SchedState) : Prop where
  cinv : CtxInv pyhash mt tasks seed s.rnd s.ctx s.remaining
  ts : TSInv s.dlq
  dlq_seed : s.dlq.seed = seed
  dlq_not_rem : ∀ e ∈ s.dlq.failures, e.task ∉ s.remaining
  dlq_nodup : (s.dlq.failures.map (fun e => e.task)).Nodup
  dlq_not_exec : ∀ e ∈ s.dlq.failures, e.task ∉ s.ctx.execution_order
  dlq_sub : ∀ e ∈ s.dlq.failures, e.task ∈ dictKeys tasks
  reasons : ∀ e ∈ s.dlq.failures, ReasonSpec tasks s.ctx e

/-- What survives of the invariant on the final state of the loop (after a
deadlock flush the remaining-related clauses no longer hold, but everything
a report reader needs does). -/
structure FinalInv (pyhash : String → ℤ) (mt : ℕ → ℕ → ℚ)
    (tasks : List (String × Task)) (seed : ℤ) (s : SchedState) : Prop where
  res_keys : s.ctx.task_results.map Prod.fst = s.ctx.execution_order
  exec_nodup : s.ctx.execution_order.Nodup
  exec_sub : ∀ n ∈ s.ctx.execution_order, n ∈ dictKeys tasks
  gating : ∀ i : ℕ, ∀ hi : i < s.ctx.execution_order.length, ∀ task : Task,
    dictGet tasks (s.ctx.execution_order.get ⟨i, hi⟩) = some task →
    ∀ d ∈ task.dependencies, d ∈ s.ctx.execution_order.take i ∧
      s.ctx.is_task_completed d = true
  res_val : ∀ n r, dictGet s.ctx.task_results n = some r →
    ∃ task, dictGet tasks n = some task ∧ r = mkResult task (taskDraw pyhash mt seed n)
  ts : TSInv s.dlq
  dlq_seed : s.dlq.seed = seed
  dlq_nodup : (s.dlq.failures.map (fun e => e.task)).Nodup
  dlq_not_exec : ∀ e ∈ s.dlq.failures, e.task ∉ s.ctx.execution_order
  dlq_sub : ∀ e ∈ s.dlq.failures, e.task ∈ dictKeys tasks
  reasons : ∀ e ∈ s.dlq.failures, ReasonSpec tasks s.ctx e

theorem dlqFlush_cons (d : DLQSystem) (n : String) (rest : List String) :
    dlqFlush d (n :: rest) = dlqFlush (d.add_failure n circularMsg) rest := rfl

theorem dlqFlush_seed (d : DLQSystem) (names : List String) :
    (dlqFlush d names).seed = d.seed := by
  induction names generalizing d with
  | nil => rfl
  | cons n rest ih => rw [dlqFlush_cons, ih]; rfl

theorem dlqFlush_failures (d : DLQSystem) (names : List String) :
    ∃ L, (dlqFlush d names).failures = d.failures ++ L ∧
      L.map entryKey = names.map (fun n => (n, circularMsg)) := by
  induction names generalizing d with
  | nil => exact ⟨[], by simp [dlqFlush], rfl⟩
  | cons n rest ih =>
    obtain ⟨L, hL, hmap⟩ := ih (d.add_failure n circularMsg)
    refine ⟨⟨n, circularMsg, (d.seed : ℚ) + (d.counter : ℚ) * epsilonTS⟩ :: L, ?_, ?_⟩
    · rw [dlqFlush_cons, hL, add_failure_failures]
      simp
    · simp [entryKey, hmap]

theorem listMapTaskEntryKey (L : List DLQEntry) :
    L.map (fun e => e.task) = (L.map entryKey).map Prod.fst := by
  rw [List.map_map]
  rfl

/-! ### One-step unfolding of the scheduling loop -/

theorem runRoundsF_succ (pyhash : String → ℤ) (mt : ℕ → ℕ → ℚ)
    (tasks : List (String × Task)) (renderer : Option Renderer) (fuel : ℕ)
    (s : SchedState) :
    runRoundsF pyhash mt tasks renderer (fuel + 1) s =
      if s.remaining = [] then s
      else
        if (classifyRound tasks s.ctx (sortNames s.remaining) s.dlq s.remaining []).2.2
            = [] then
          { s with
            dlq := dlqFlush
              (classifyRound tasks s.ctx (sortNames s.remaining) s.dlq s.remaining []).1
              (sortNames
                (classifyRound tasks s.ctx (sortNames s.remaining) s.dlq s.remaining []).2.1),
            remaining :=
              (classifyRound tasks s.ctx (sortNames s.remaining) s.dlq s.remaining []).2.1 }
        else
          runRoundsF pyhash mt tasks renderer fuel
            { rnd := (execRound pyhash mt tasks renderer
                (sortNames
                  (classifyRound tasks s.ctx (sortNames s.remaining) s.dlq s.remaining []).2.2)
                s.rnd s.ctx
                (classifyRound tasks s.ctx (sortNames s.remaining) s.dlq s.remaining []).2.1).1,
              dlq := (classifyRound tasks s.ctx (sortNames s.remaining) s.dlq s.remaining []).1,
              ctx := (execRound pyhash mt tasks renderer
                (sortNames
                  (classifyRound tasks s.ctx (sortNames s.remaining) s.dlq s.remaining []).2.2)
                s.rnd s.ctx
                (classifyRound tasks s.ctx (sortNames s.remaining) s.dlq s.remaining []).2.1).2.1,
              remaining := (execRound pyhash mt tasks renderer
                (sortNames
                  (classifyRound tasks s.ctx (sortNames s.remaining) s.dlq s.remaining []).2.2)
                s.rnd s.ctx
                (classifyRound tasks s.ctx (sortNames s.remaining) s.dlq s.remaining []).2.1).2.2 } := by
  rfl

theorem finalInv_of_inv {pyhash : String → ℤ} {mt : ℕ → ℕ → ℚ}
    {tasks : List (String × Task)} {seed : ℤ} {s : SchedState}
    (h : Inv pyhash mt tasks seed s) : FinalInv pyhash mt tasks seed s :=
  ⟨h.cinv.res_keys, h.cinv.exec_nodup, h.cinv.exec_sub, h.cinv.gating, h.cinv.res_val,
   h.ts, h.dlq_seed, h.dlq_nodup, h.dlq_not_exec, h.dlq_sub, h.reasons⟩

/-- Effect of one classification pass on the loop invariant, plus the facts
about its outputs needed to continue the round. -/
theorem classify_mid_inv (pyhash : String → ℤ) (mt : ℕ → ℕ → ℚ)
    {tasks : List (String × Task)} {seed : ℤ} {s : SchedState}
    (hinv : Inv pyhash mt tasks seed s) :
    Inv pyhash mt tasks seed
      { rnd := s.rnd,
        dlq := (classifyRound tasks s.ctx (sortNames s.remaining) s.dlq s.remaining []).1,
        ctx := s.ctx,
        remaining :=
          (classifyRound tasks s.ctx (sortNames s.remaining) s.dlq s.remaining []).2.1 } ∧
    (∃ L, (classifyRound tasks s.ctx (sortNames s.remaining) s.dlq s.remaining []).1.failures
        = s.dlq.failures ++ L ∧ ∀ e ∈ L, e.task ∈ s.remaining) ∧
    (∀ n ∈ (classifyRound tasks s.ctx (sortNames s.remaining) s.dlq s.remaining []).2.2,
      classifyName tasks s.ctx n = Classify.frontier ∧
      n ∈ (classifyRound tasks s.ctx (sortNames s.remaining) s.dlq s.remaining []).2.1 ∧
      n ∈ s.remaining) ∧
    (classifyRound tasks s.ctx (sortNames s.remaining) s.dlq s.remaining []).2.2.Nodup := by
  have hnames_nodup : (sortNames s.remaining).Nodup :=
    nodup_sortNames hinv.cinv.rem_nodup
  have hsubl := classifyRound_remaining_sublist tasks s.ctx (sortNames s.remaining)
    s.dlq s.remaining []
  obtain ⟨L, hL, hproj⟩ := classifyRound_failures tasks s.ctx (sortNames s.remaining)
    s.dlq s.remaining []
  have hLfacts : ∀ e ∈ L, e.task ∈ sortNames s.remaining ∧
      classifyName tasks s.ctx e.task = Classify.blocked e.reason := by
    intro e he
    have : entryKey e ∈ L.map entryKey := List.mem_map_of_mem entryKey he
    rw [hproj] at this
    exact blockedProj_mem_elim this
  have hLtasks_nodup : (L.map (fun e => e.task)).Nodup := by
    rw [listMapTaskEntryKey, hproj, blockedProj_fst]
    exact List.Nodup.filter _ hnames_nodup
  have hexec := classifyRound_exec tasks s.ctx (sortNames s.remaining) s.dlq s.remaining []
  have hexecfacts : ∀ n ∈ (classifyRound tasks s.ctx (sortNames s.remaining)
      s.dlq s.remaining []).2.2,
      classifyName tasks s.ctx n = Classify.frontier ∧
      n ∈ (classifyRound tasks s.ctx (sortNames s.remaining) s.dlq s.remaining []).2.1 ∧
      n ∈ s.remaining := by
    intro n hn
    rw [hexec] at hn
    simp only [List.nil_append] at hn
    have hmemf := List.mem_of_mem_filter hn
    have hfro : classifyName tasks s.ctx n = Classify.frontier := by
      have := List.of_mem_filter hn
      exact of_decide_eq_true this
    have hrem : n ∈ s.remaining := mem_sortNames.mp hmemf
    refine ⟨hfro, ?_, hrem⟩
    refine classifyRound_mem_remaining hrem ?_
    intro r hc
    rw [hfro] at hc
    exact Classify.noConfusion hc
  have hexecnodup : (classifyRound tasks s.ctx (sortNames s.remaining)
      s.dlq s.remaining []).2.2.Nodup := by
    rw [hexec]
    simp only [List.nil_append]
    exact List.Nodup.filter _ hnames_nodup
  refine ⟨?_, ⟨L, hL, fun e he => mem_sortNames.mp (hLfacts e he).1⟩, hexecfacts, hexecnodup⟩
  refine ⟨?_, ?_, ?_, ?_, ?_, ?_, ?_, ?_⟩
  · -- CtxInv for the shrunk remaining set
    refine ⟨hinv.cinv.rem_nodup.sublist hsubl, ?_, hinv.cinv.res_keys,
      hinv.cinv.exec_nodup, ?_, hinv.cinv.exec_sub, hinv.cinv.gating,
      hinv.cinv.res_val, hinv.cinv.rng_dom, hinv.cinv.rng_seed, hinv.cinv.ctx_seed⟩
    · intro n hn
      exact hinv.cinv.rem_sub n (hsubl.subset hn)
    · intro n hn
      exact hinv.cinv.rem_fresh n (hsubl.subset hn)
  · exact classifyRound_ts _ _ _ hinv.ts
  · rw [classifyRound_dlq_seed]
    exact hinv.dlq_seed
  · intro e he
    rw [hL] at he
    rcases List.mem_append.mp he with he | he
    · intro hc
      exact hinv.dlq_not_rem e he (hsubl.subset hc)
    · obtain ⟨hmem, hblocked⟩ := hLfacts e he
      exact classifyRound_not_mem_remaining hinv.cinv.rem_nodup hmem hblocked
  · rw [hL, List.map_append]
    refine List.Nodup.append hinv.dlq_nodup hLtasks_nodup ?_
    intro x hx hx2
    obtain ⟨e, he, hex⟩ := List.mem_map.mp hx
    obtain ⟨e2, he2, hex2⟩ := List.mem_map.mp hx2
    have hxrem : x ∈ s.remaining := by
      rw [← hex2]
      exact mem_sortNames.mp (hLfacts e2 he2).1
    rw [← hex] at hxrem
    exact hinv.dlq_not_rem e he hxrem
  · intro e he
    rw [hL] at he
    rcases List.mem_append.mp he with he | he
    · exact hinv.dlq_not_exec e he
    · exact hinv.cinv.rem_fresh e.task (mem_sortNames.mp (hLfacts e he).1)
  · intro e he
    rw [hL] at he
    rcases List.mem_append.mp he with he | he
    · exact hinv.dlq_sub e he
    · exact hinv.cinv.rem_sub e.task (mem_sortNames.mp (hLfacts e he).1)
  · intro e he
    rw [hL] at he
    rcases List.mem_append.mp he with he | he
    · exact hinv.reasons e he
    · obtain ⟨task, hd, hforms⟩ := classifyName_blocked_elim (hLfacts e he).2
      exact Or.inr ⟨task, hd, hforms⟩

/-- Master theorem about the scheduling loop: the invariant yields the final
facts, the DLQ and execution order only grow by entries drawn from the
initial remaining set, executed additions were frontier-classified, and
recorded results are never modified afterwards. -/
theorem runRoundsF_master (pyhash : String → ℤ) (mt : ℕ → ℕ → ℚ)
    {tasks : List (String × Task)} {seed : ℤ}
    (renderer : Option Renderer) (hwf : StoreWF tasks) :
    ∀ (fuel : ℕ) (s : SchedState), Inv pyhash mt tasks seed s →
      FinalInv pyhash mt tasks seed (runRoundsF pyhash mt tasks renderer fuel s) ∧
      (∃ L, (runRoundsF pyhash mt tasks renderer fuel s).dlq.failures =
          s.dlq.failures ++ L ∧ ∀ e ∈ L, e.task ∈ s.remaining) ∧
      (∃ M, (runRoundsF pyhash mt tasks renderer fuel s).ctx.execution_order =
          s.ctx.execution_order ++ M ∧
          ∀ n ∈ M, n ∈ s.remaining ∧ ∃ c, classifyName tasks c n = Classify.frontier) ∧
      (∀ n, n ∉ s.remaining →
        dictGet (runRoundsF pyhash mt tasks renderer fuel s).ctx.task_results n =
          dictGet s.ctx.task_results n) ∧
      ResExt s.ctx (runRoundsF pyhash mt tasks renderer fuel s).ctx := by
  intro fuel
  induction fuel with
  | zero =>
    intro s hinv
    exact ⟨finalInv_of_inv hinv, ⟨[], by simp [runRoundsF], by simp⟩,
      ⟨[], by simp [runRoundsF], by simp⟩, fun n _ => rfl, resExt_refl _⟩
  | succ fuel ih =>
    intro s hinv
    rw [runRoundsF_succ]
    by_cases hrem : s.remaining = []
    · rw [if_pos hrem]
      exact ⟨finalInv_of_inv hinv, ⟨[], by simp, by simp⟩, ⟨[], by simp, by simp⟩,
        fun n _ => rfl, resExt_refl _⟩
    · rw [if_neg hrem]
      obtain ⟨hmid, ⟨L, hL, hLrem⟩, hexecfacts, hexecnodup⟩ :=
        classify_mid_inv pyhash mt hinv
      set cl := classifyRound tasks s.ctx (sortNames s.remaining) s.dlq s.remaining []
        with hcl_def
      have hsubl : List.Sublist cl.2.1 s.remaining :=
        classifyRound_remaining_sublist tasks s.ctx (sortNames s.remaining)
          s.dlq s.remaining []
      by_cases hex : cl.2.2 = []
      · rw [if_pos hex]
        -- deadlock: flush every still-remaining task with the cyclic reason
        obtain ⟨L2, hL2, hmap2⟩ := dlqFlush_failures cl.1 (sortNames cl.2.1)
        have hL2facts : ∀ e ∈ L2, e.task ∈ cl.2.1 ∧ e.reason = circularMsg := by
          intro e he
          have : entryKey e ∈ L2.map entryKey := List.mem_map_of_mem entryKey he
          rw [hmap2] at this
          obtain ⟨n, hn, hne⟩ := List.mem_map.mp this
          have ht : e.task = n := (congrArg Prod.fst hne).symm
          have hr : e.reason = circularMsg := (congrArg Prod.snd hne).symm
          rw [ht]
          exact ⟨mem_sortNames.mp hn, hr⟩
        have hL2tasks : L2.map (fun e => e.task) = sortNames cl.2.1 := by
          rw [listMapTaskEntryKey, hmap2, List.map_map]
          exact List.map_id _
        refine ⟨?_, ?_, ⟨[], by simp, by simp⟩, fun n _ => rfl, resExt_refl _⟩
        · refine ⟨hmid.cinv.res_keys, hmid.cinv.exec_nodup, hmid.cinv.exec_sub,
            hmid.cinv.gating, hmid.cinv.res_val, TSInv_flush hmid.ts _, ?_, ?_, ?_, ?_, ?_⟩
          · rw [dlqFlush_seed]
            exact hmid.dlq_seed
          · rw [hL2, List.map_append]
            refine List.Nodup.append hmid.dlq_nodup ?_ ?_
            · rw [hL2tasks]
              exact nodup_sortNames hmid.cinv.rem_nodup
            · intro x hx hx2
              obtain ⟨e, he, hex1⟩ := List.mem_map.mp hx
              obtain ⟨e2, he2, hex2⟩ := List.mem_map.mp hx2
              have hxm : x ∈ cl.2.1 := by
                rw [← hex2]
                exact (hL2facts e2 he2).1
              rw [← hex1] at hxm
              exact hmid.dlq_not_rem e he hxm
          · intro e he
            rw [hL2] at he
            rcases List.mem_append.mp he with he | he
            · exact hmid.dlq_not_exec e he
            · exact hmid.cinv.rem_fresh e.task (hL2facts e he).1
          · intro e he
            rw [hL2] at he
            rcases List.mem_append.mp he with he | he
            · exact hmid.dlq_sub e he
            · exact hmid.cinv.rem_sub e.task (hL2facts e he).1
          · intro e he
            rw [hL2] at he
            rcases List.mem_append.mp he with he | he
            · exact hmid.reasons e he
            · exact Or.inl (hL2facts e he).2
        · refine ⟨L ++ L2, ?_, ?_⟩
          · rw [hL2, hL, List.append_assoc]
          · intro e he
            rcases List.mem_append.mp he with he | he
            · exact hLrem e he
            · exact hsubl.subset (hL2facts e he).1
      · rw [if_neg hex]
        set er := execRound pyhash mt tasks renderer (sortNames cl.2.2) s.rnd s.ctx cl.2.1
          with her_def
        have hexecnames_nodup : (sortNames cl.2.2).Nodup := nodup_sortNames hexecnodup
        have hfacts' : ∀ n ∈ sortNames cl.2.2,
            classifyName tasks s.ctx n = Classify.frontier ∧
            n ∈ cl.2.1 ∧ n ∈ s.remaining :=
          fun n hn => hexecfacts n (mem_sortNames.mp hn)
        obtain ⟨hcinv2, hext2⟩ := execRound_preserve pyhash mt renderer hwf s.ctx
          (sortNames cl.2.2) s.rnd s.ctx cl.2.1 hmid.cinv (resExt_refl _)
          hexecnames_nodup (fun n hn => (hfacts' n hn).2.1) (fun n hn => (hfacts' n hn).1)
        have horder : er.2.1.execution_order = s.ctx.execution_order ++
            (sortNames cl.2.2).filter (fun n => (dictGet tasks n).isSome) :=
          execRound_order pyhash mt tasks renderer (sortNames cl.2.2) s.rnd s.ctx cl.2.1
        have hersubl : List.Sublist er.2.2 cl.2.1 :=
          execRound_remaining_sublist pyhash mt tasks renderer (sortNames cl.2.2)
            s.rnd s.ctx cl.2.1
        have hinv2 : Inv pyhash mt tasks seed
            { rnd := er.1, dlq := cl.1, ctx := er.2.1, remaining := er.2.2 } := by
          refine ⟨hcinv2, hmid.ts, hmid.dlq_seed, ?_, hmid.dlq_nodup, ?_, hmid.dlq_sub, ?_⟩
          · intro e he hc
            exact hmid.dlq_not_rem e he (hersubl.subset hc)
          · intro e he
            rw [horder]
            intro hc
            rcases List.mem_append.mp hc with hc | hc
            · exact hmid.dlq_not_exec e he hc
            · have : e.task ∈ sortNames cl.2.2 := List.mem_of_mem_filter hc
              exact hmid.dlq_not_rem e he (hfacts' e.task this).2.1
          · intro e he
            exact reasonSpec_mono hext2 (hmid.reasons e he)
        obtain ⟨hfin, ⟨Li, hLi, hLirem⟩, ⟨Mi, hMi, hMifacts⟩, hstab_i, hext_i⟩ :=
          ih { rnd := er.1, dlq := cl.1, ctx := er.2.1, remaining := er.2.2 } hinv2
        refine ⟨hfin, ⟨L ++ Li, ?_, ?_⟩, ?_, ?_, ?_⟩
        · rw [hLi]
          show cl.1.failures ++ Li = s.dlq.failures ++ (L ++ Li)
          rw [hL, List.append_assoc]
        · intro e he
          rcases List.mem_append.mp he with he | he
          · exact hLrem e he
          · exact hsubl.subset (hersubl.subset (hLirem e he))
        · refine ⟨(sortNames cl.2.2).filter (fun n => (dictGet tasks n).isSome) ++ Mi,
            ?_, ?_⟩
          · rw [hMi]
            show er.2.1.execution_order ++ Mi = _
            rw [horder, List.append_assoc]
          · intro n hn
            rcases List.mem_append.mp hn with hn | hn
            · have hnn : n ∈ sortNames cl.2.2 := List.mem_of_mem_filter hn
              exact ⟨(hfacts' n hnn).2.2, s.ctx, (hfacts' n hnn).1⟩
            · obtain ⟨hn1, hn2⟩ := hMifacts n hn
              exact ⟨hsubl.subset (hersubl.subset hn1), hn2⟩
        · intro n hn
          have hn_exec : n ∉ sortNames cl.2.2 := by
            intro hc
            exact hn (hfacts' n hc).2.2
          have h1 : dictGet er.2.1.task_results n = dictGet s.ctx.task_results n := by
            rw [her_def]
            exact execRound_results_stable pyhash mt tasks renderer _ _ _ _ hn_exec
          have hn_rem2 : n ∉ er.2.2 := by
            intro hc
            exact hn (hsubl.subset (hersubl.subset hc))
          rw [hstab_i n hn_rem2]
          exact h1
        · exact resExt_trans hext2 hext_i

/-! ### Initial state of a run and its invariant -/

theorem initial_inv (pyhash : String → ℤ) (mt : ℕ → ℕ → ℚ)
    {tasks : List (String × Task)} (seed : ℤ) (hkeys : (dictKeys tasks).Nodup) :
    Inv pyhash mt tasks seed
      { rnd := { seed := seed, states := [] },
        dlq := { failures := [], seed := seed, counter := 0 },
        ctx := { seed := seed, task_results := [], execution_order := [], dlq := [] },
        remaining := dictKeys tasks } := by
  refine ⟨⟨hkeys, fun n hn => hn, rfl, List.nodup_nil, ?_, ?_, ?_, ?_, ?_, rfl, rfl⟩,
    ⟨rfl, ?_⟩, rfl, ?_, ?_, ?_, ?_, ?_⟩
  · intro n _ hc
    exact List.not_mem_nil n hc
  · intro n hn
    exact absurd hn (List.not_mem_nil n)
  · intro i hi
    exact absurd hi (by simp)
  · intro n r hr
    exact Option.noConfusion hr
  · intro p hp
    exact absurd hp (List.not_mem_nil p)
  · intro i hi
    exact absurd hi (by simp)
  · intro e he
    exact absurd he (List.not_mem_nil e)
  · simp
  · intro e he
    exact absurd he (List.not_mem_nil e)
  · intro e he
    exact absurd he (List.not_mem_nil e)
  · intro e he
    exact absurd he (List.not_mem_nil e)

/-- The scheduler state at the end of a run on a freshly constructed engine. -/
def finalState (pyhash : String → ℤ) (mt : ℕ → ℕ → ℚ) (cfg : Config)
    (renderer : Option Renderer) : SchedState :=
  runRoundsF pyhash mt (parseConfig [] cfg) renderer
    ((dictKeys (parseConfig [] cfg)).length + 1)
    { rnd := { seed := cfg.seed.getD 42, states := [] },
      dlq := { failures := [], seed := cfg.seed.getD 42, counter := 0 },
      ctx := { seed := cfg.seed.getD 42, task_results := [],
               execution_order := [], dlq := [] },
      remaining := dictKeys (parseConfig [] cfg) }

theorem runFresh_eq (pyhash : String → ℤ) (mt : ℕ → ℕ → ℚ) (cfg : Config)
    (renderer : Option Renderer) :
    runFresh pyhash mt cfg renderer =
      generateResult (parseConfig [] cfg)
        { (finalState pyhash mt cfg renderer).ctx with
          dlq := (finalState pyhash mt cfg renderer).dlq.failures }
        (((finalState pyhash mt cfg renderer).ctx.execution_order.length : ℚ)
          * mkRat 1 10 - 0) := rfl

theorem finalState_facts (pyhash : String → ℤ) (mt : ℕ → ℕ → ℚ) (cfg : Config)
    (renderer : Option Renderer) :
    FinalInv pyhash mt (parseConfig [] cfg) (cfg.seed.getD 42)
        (finalState pyhash mt cfg renderer) ∧
      (∃ L, (finalState pyhash mt cfg renderer).dlq.failures = L ∧
        ∀ e ∈ L, e.task ∈ dictKeys (parseConfig [] cfg)) ∧
      (∃ M, (finalState pyhash mt cfg renderer).ctx.execution_order = M ∧
        ∀ n ∈ M, n ∈ dictKeys (parseConfig [] cfg) ∧
          ∃ c, classifyName (parseConfig [] cfg) c n = Classify.frontier) := by
  have hkeys : (dictKeys (parseConfig [] cfg)).Nodup :=
    dictKeys_nodup_parseConfig List.nodup_nil
  have hwf : StoreWF (parseConfig [] cfg) :=
    StoreWF_parseConfig (fun p hp => absurd hp (List.not_mem_nil p))
  obtain ⟨hfin, ⟨L, hL, hLrem⟩, ⟨M, hM, hMfacts⟩, _, _⟩ :=
    runRoundsF_master pyhash mt renderer hwf
      ((dictKeys (parseConfig [] cfg)).length + 1) _
      (initial_inv pyhash mt (cfg.seed.getD 42) hkeys)
  refine ⟨hfin, ⟨L, ?_, hLrem⟩, ⟨M, ?_, hMfacts⟩⟩
  · rw [show (finalState pyhash mt cfg renderer).dlq.failures =
      ([] : List DLQEntry) ++ L from hL]
    simp
  · rw [show (finalState pyhash mt cfg renderer).ctx.execution_order =
      ([] : List String) ++ M from hM]
    simp

/-! ### DLQ persistence through the loop -/

theorem runRoundsF_dlq_extends (pyhash : String → ℤ) (mt : ℕ → ℕ → ℚ)
    (tasks : List (String × Task)) (renderer : Option Renderer) :
    ∀ (fuel : ℕ) (s : SchedState),
      ∃ X, (runRoundsF pyhash mt tasks renderer fuel s).dlq.failures =
        s.dlq.failures ++ X := by
  intro fuel
  induction fuel with
  | zero => intro s; exact ⟨[], by simp [runRoundsF]⟩
  | succ fuel ih =>
    intro s
    rw [runRoundsF_succ]
    by_cases hrem : s.remaining = []
    · rw [if_pos hrem]; exact ⟨[], by simp⟩
    · rw [if_neg hrem]
      set cl := classifyRound tasks s.ctx (sortNames s.remaining) s.dlq s.remaining []
        with hcl_def
      obtain ⟨L, hL, _⟩ := classifyRound_failures tasks s.ctx (sortNames s.remaining)
        s.dlq s.remaining []
      by_cases hex : cl.2.2 = []
      · rw [if_pos hex]
        obtain ⟨L2, hL2, _⟩ := dlqFlush_failures cl.1 (sortNames cl.2.1)
        exact ⟨L ++ L2, by rw [hL2, hL, List.append_assoc]⟩
      · rw [if_neg hex]
        obtain ⟨X, hX⟩ := ih _
        refine ⟨L ++ X, ?_⟩
        rw [hX]
        show cl.1.failures ++ X = s.dlq.failures ++ (L ++ X)
        rw [hL, List.append_assoc]

/-- A task classified blocked in the first examined round gets a DLQ entry
with exactly that reason, and the entry persists to the end of the loop. -/
theorem runRoundsF_blocked_entry (pyhash : String → ℤ) (mt : ℕ → ℕ → ℚ)
    (tasks : List (String × Task)) (renderer : Option Renderer)
    (fuel : ℕ) (s : SchedState) {n r : String} (hn : n ∈ s.remaining)
    (hb : classifyName tasks s.ctx n = Classify.blocked r) :
    ∃ e ∈ (runRoundsF pyhash mt tasks renderer (fuel + 1) s).dlq.failures,
      e.task = n ∧ e.reason = r := by
  rw [runRoundsF_succ]
  have hrem : ¬s.remaining = [] := List.ne_nil_of_mem hn
  rw [if_neg hrem]
  set cl := classifyRound tasks s.ctx (sortNames s.remaining) s.dlq s.remaining []
    with hcl_def
  obtain ⟨L, hL, hproj⟩ := classifyRound_failures tasks s.ctx (sortNames s.remaining)
    s.dlq s.remaining []
  have hpair : (n, r) ∈ blockedProj tasks s.ctx (sortNames s.remaining) := by
    unfold blockedProj
    refine List.mem_filterMap.mpr ⟨n, mem_sortNames.mpr hn, ?_⟩
    rw [hb]
  have : (n, r) ∈ L.map entryKey := by rw [hproj]; exact hpair
  obtain ⟨e, he, hek⟩ := List.mem_map.mp this
  have he_task : e.task = n := congrArg Prod.fst hek
  have he_reason : e.reason = r := congrArg Prod.snd hek
  have he_mid : e ∈ cl.1.failures := by
    rw [hL]
    exact List.mem_append_right _ he
  by_cases hex : cl.2.2 = []
  · rw [if_pos hex]
    obtain ⟨L2, hL2, _⟩ := dlqFlush_failures cl.1 (sortNames cl.2.1)
    refine ⟨e, ?_, he_task, he_reason⟩
    show e ∈ (dlqFlush cl.1 (sortNames cl.2.1)).failures
    rw [hL2]
    exact List.mem_append_left _ he_mid
  · rw [if_neg hex]
    obtain ⟨X, hX⟩ := runRoundsF_dlq_extends pyhash mt tasks renderer fuel _
    refine ⟨e, ?_, he_task, he_reason⟩
    rw [hX]
    exact List.mem_append_left _ he_mid

/-! ### Report-level helper lemmas -/

theorem mem_statusList {m : List (String × TaskResult)} {st : TaskStatus} {n : String}
    (hnodup : (m.map Prod.fst).Nodup) :
    n ∈ (m.filter (fun p => decide (p.2.status = st))).map Prod.fst ↔
      ∃ r, dictGet m n = some r ∧ r.status = st := by
  induction m with
  | nil => simp [dictGet]
  | cons p rest ih =>
    have hnodup_rest : (rest.map Prod.fst).Nodup := (List.nodup_cons.mp hnodup).2
    have hp_not : p.1 ∉ rest.map Prod.fst := (List.nodup_cons.mp hnodup).1
    rw [List.filter_cons]
    by_cases hst : p.2.status = st
    · rw [if_pos (by simpa using hst)]
      simp only [List.map_cons, List.mem_cons]
      constructor
      · intro h
        rcases h with h | h
        · subst h
          exact ⟨p.2, by simp [dictGet], hst⟩
        · obtain ⟨r, hr, hrs⟩ := (ih hnodup_rest).mp h
          have hne : p.1 ≠ n := by
            intro he
            subst he
            exact hp_not (dictGet_mem_keys hr)
          exact ⟨r, by simp [dictGet, hne, hr], hrs⟩
      · intro ⟨r, hr, hrs⟩
        by_cases hpn : p.1 = n
        · exact Or.inl hpn.symm
        · right
          rw [show dictGet (p :: rest) n = dictGet rest n by simp [dictGet, hpn]] at hr
          exact (ih hnodup_rest).mpr ⟨r, hr, hrs⟩
    · rw [if_neg (by simpa using hst)]
      rw [ih hnodup_rest]
      constructor
      · intro ⟨r, hr, hrs⟩
        have hne : p.1 ≠ n := by
          intro he
          subst he
          exact hp_not (dictGet_mem_keys hr)
        exact ⟨r, by simp [dictGet, hne, hr], hrs⟩
      · intro ⟨r, hr, hrs⟩
        by_cases hpn : p.1 = n
        · subst hpn
          rw [show dictGet (p :: rest) p.1 = some p.2 by simp [dictGet]] at hr
          have : r = p.2 := (Option.some.inj hr).symm
          subst this
          exact absurd hrs hst
        · rw [show dictGet (p :: rest) n = dictGet rest n by simp [dictGet, hpn]] at hr
          exact ⟨r, hr, hrs⟩

theorem filter_task_singleton {L : List DLQEntry} {n : String}
    (hnd : (L.map (fun e => e.task)).Nodup) {e0 : DLQEntry} (he0 : e0 ∈ L)
    (hn : e0.task = n) :
    L.filter (fun e => decide (e.task = n)) = [e0] := by
  induction L with
  | nil => simp at he0
  | cons h t ih =>
    have hnd_t : (t.map (fun e => e.task)).Nodup := (List.nodup_cons.mp hnd).2
    have hh_not : h.task ∉ t.map (fun e => e.task) := (List.nodup_cons.mp hnd).1
    rw [List.filter_cons]
    by_cases hht : h.task = n
    · rw [if_pos (by simpa using hht)]
      have hhe0 : h = e0 := by
        rcases List.mem_cons.mp he0 with he | he
        · exact he.symm
        · exfalso
          apply hh_not
          rw [hht, ← hn]
          exact List.mem_map_of_mem (fun e => e.task) he
      subst hhe0
      have hrest : t.filter (fun e => decide (e.task = n)) = [] := by
        rw [List.filter_eq_nil_iff]
        intro e he hc
        apply hh_not
        rw [hht]
        have : e.task = n := of_decide_eq_true hc
        rw [← this]
        exact List.mem_map_of_mem (fun e => e.task) he
      rw [hrest]
    · rw [if_neg (by simpa using hht)]
      have he0t : e0 ∈ t := by
        rcases List.mem_cons.mp he0 with he | he
        · exfalso
          rw [he] at hn
          exact hht hn
        · exact he
      exact ih hnd_t he0t

theorem runRoundsF_order_extends (pyhash : String → ℤ) (mt : ℕ → ℕ → ℚ)
    (tasks : List (String × Task)) (renderer : Option Renderer) :
    ∀ (fuel : ℕ) (s : SchedState),
      ∃ X, (runRoundsF pyhash mt tasks renderer fuel s).ctx.execution_order =
        s.ctx.execution_order ++ X := by
  intro fuel
  induction fuel with
  | zero => intro s; exact ⟨[], by simp [runRoundsF]⟩
  | succ fuel ih =>
    intro s
    rw [runRoundsF_succ]
    by_cases hrem : s.remaining = []
    · rw [if_pos hrem]; exact ⟨[], by simp⟩
    · rw [if_neg hrem]
      set cl := classifyRound tasks s.ctx (sortNames s.remaining) s.dlq s.remaining []
        with hcl_def
      by_cases hex : cl.2.2 = []
      · rw [if_pos hex]; exact ⟨[], by simp⟩
      · rw [if_neg hex]
        obtain ⟨X, hX⟩ := ih _
        refine ⟨(sortNames cl.2.2).filter (fun n => (dictGet tasks n).isSome) ++ X, ?_⟩
        rw [hX]
        show (execRound pyhash mt tasks renderer (sortNames cl.2.2)
          s.rnd s.ctx cl.2.1).2.1.execution_order ++ X = _
        rw [execRound_order, List.append_assoc]

/-- A task classified executable in the first examined round is executed in
that round, and its place in the execution order persists to the end. -/
theorem runRoundsF_frontier_executes (pyhash : String → ℤ) (mt : ℕ → ℕ → ℚ)
    (tasks : List (String × Task)) (renderer : Option Renderer)
    (fuel : ℕ) (s : SchedState) {n : String} (hn : n ∈ s.remaining)
    (hf : classifyName tasks s.ctx n = Classify.frontier) :
    n ∈ (runRoundsF pyhash mt tasks renderer (fuel + 1) s).ctx.execution_order := by
  rw [runRoundsF_succ]
  have hrem : ¬s.remaining = [] := List.ne_nil_of_mem hn
  rw [if_neg hrem]
  set cl := classifyRound tasks s.ctx (sortNames s.remaining) s.dlq s.remaining []
    with hcl_def
  have hexec := classifyRound_exec tasks s.ctx (sortNames s.remaining) s.dlq s.remaining []
  have hn_cl : n ∈ cl.2.2 := by
    rw [hcl_def, hexec]
    simp only [List.nil_append]
    refine List.mem_filter.mpr ⟨mem_sortNames.mpr hn, ?_⟩
    simp [hf]
  have hex : ¬cl.2.2 = [] := List.ne_nil_of_mem hn_cl
  rw [if_neg hex]
  obtain ⟨task, hd, _⟩ := classifyName_frontier_elim hf
  have hn_in_round : n ∈ (execRound pyhash mt tasks renderer (sortNames cl.2.2)
      s.rnd s.ctx cl.2.1).2.1.execution_order := by
    rw [execRound_order]
    refine List.mem_append_right _ ?_
    refine List.mem_filter.mpr ⟨mem_sortNames.mpr hn_cl, ?_⟩
    simp [hd]
  obtain ⟨X, hX⟩ := runRoundsF_order_extends pyhash mt tasks renderer fuel _
  rw [hX]
  exact List.mem_append_left _ hn_in_round

/-! ### Renderer irrelevance (the call-site catch makes hooks inert) -/

theorem execRound_renderer_irrelevant (pyhash : String → ℤ) (mt : ℕ → ℕ → ℚ)
    (tasks : List (String × Task)) (r1 r2 : Option Renderer) :
    ∀ (names : List String) (rnd : DeterministicRandom) (ctx : ExecutionContext)
      (rem : List String),
      execRound pyhash mt tasks r1 names rnd ctx rem =
        execRound pyhash mt tasks r2 names rnd ctx rem := by
  intro names
  induction names with
  | nil => intro rnd ctx rem; rfl
  | cons n rest ih =>
    intro rnd ctx rem
    cases hd : dictGet tasks n with
    | none =>
      rw [execRound_cons_none _ _ _ _ _ _ _ hd, execRound_cons_none _ _ _ _ _ _ _ hd]
      exact ih _ _ _
    | some task =>
      rw [execRound_cons_some _ _ _ _ _ _ _ hd, execRound_cons_some _ _ _ _ _ _ _ hd]
      exact ih _ _ _

theorem runRoundsF_renderer_irrelevant (pyhash : String → ℤ) (mt : ℕ → ℕ → ℚ)
    (tasks : List (String × Task)) (r1 r2 : Option Renderer) :
    ∀ (fuel : ℕ) (s : SchedState),
      runRoundsF pyhash mt tasks r1 fuel s = runRoundsF pyhash mt tasks r2 fuel s := by
  intro fuel
  induction fuel with
  | zero => intro s; rfl
  | succ fuel ih =>
    intro s
    rw [runRoundsF_succ, runRoundsF_succ]
    by_cases hrem : s.remaining = []
    · rw [if_pos hrem, if_pos hrem]
    · rw [if_neg hrem, if_neg hrem]
      set cl := classifyRound tasks s.ctx (sortNames s.remaining) s.dlq s.remaining []
        with hcl_def
      by_cases hex : cl.2.2 = []
      · rw [if_pos hex, if_pos hex]
      · rw [if_neg hex, if_neg hex]
        rw [execRound_renderer_irrelevant pyhash mt tasks r1 r2]
        exact ih _

theorem finalState_renderer_irrelevant (pyhash : String → ℤ) (mt : ℕ → ℕ → ℚ)
    (cfg : Config) (r1 r2 : Option Renderer) :
    finalState pyhash mt cfg r1 = finalState pyhash mt cfg r2 := by
  unfold finalState
  exact runRoundsF_renderer_irrelevant pyhash mt _ r1 r2 _ _

theorem runFresh_renderer_irrelevant (pyhash : String → ℤ) (mt : ℕ → ℕ → ℚ)
    (cfg : Config) (r1 r2 : Option Renderer) :
    runFresh pyhash mt cfg r1 = runFresh pyhash mt cfg r2 := by
  rw [runFresh_eq, runFresh_eq, finalState_renderer_irrelevant pyhash mt cfg r1 r2]

/-! ### Fuel adequacy: the loop makes strict progress, so any fuel above
the size of the remaining set computes the same fixed point the Python
while loop reaches -/

theorem runRoundsF_progress (pyhash : String → ℤ) (mt : ℕ → ℕ → ℚ)
    (tasks : List (String × Task)) (renderer : Option Renderer) (s : SchedState)
    (hex : (classifyRound tasks s.ctx (sortNames s.remaining)
      s.dlq s.remaining []).2.2 ≠ []) :
    (execRound pyhash mt tasks renderer
      (sortNames (classifyRound tasks s.ctx (sortNames s.remaining)
        s.dlq s.remaining []).2.2)
      s.rnd s.ctx
      (classifyRound tasks s.ctx (sortNames s.remaining)
        s.dlq s.remaining []).2.1).2.2.length < s.remaining.length := by
  obtain ⟨e, he⟩ := List.exists_mem_of_ne_nil _ hex
  have hexeq := classifyRound_exec tasks s.ctx (sortNames s.remaining) s.dlq s.remaining []
  have he2 := he
  rw [hexeq] at he2
  simp only [List.nil_append] at he2
  have he_names : e ∈ sortNames s.remaining := (List.mem_filter.mp he2).1
  have he_fro : classifyName tasks s.ctx e = Classify.frontier :=
    of_decide_eq_true (List.mem_filter.mp he2).2
  have he_rem : e ∈ s.remaining := mem_sortNames.mp he_names
  obtain ⟨task, hd, _⟩ := classifyName_frontier_elim he_fro
  have he_rem1 : e ∈ (classifyRound tasks s.ctx (sortNames s.remaining)
      s.dlq s.remaining []).2.1 := by
    refine classifyRound_mem_remaining he_rem ?_
    intro r hc
    rw [he_fro] at hc
    exact Classify.noConfusion hc
  calc (execRound pyhash mt tasks renderer
        (sortNames (classifyRound tasks s.ctx (sortNames s.remaining)
          s.dlq s.remaining []).2.2)
        s.rnd s.ctx
        (classifyRound tasks s.ctx (sortNames s.remaining)
          s.dlq s.remaining []).2.1).2.2.length
      < (classifyRound tasks s.ctx (sortNames s.remaining)
          s.dlq s.remaining []).2.1.length :=
        execRound_length_lt pyhash mt tasks renderer hd _ _ _ _
          (mem_sortNames.mpr he) he_rem1
    _ ≤ s.remaining.length :=
        (classifyRound_remaining_sublist tasks s.ctx (sortNames s.remaining)
          s.dlq s.remaining []).length_le

theorem runRoundsF_fuel_irrelevant (pyhash : String → ℤ) (mt : ℕ → ℕ → ℚ)
    (tasks : List (String × Task)) (renderer : Option Renderer) :
    ∀ (f1 f2 : ℕ) (s : SchedState), s.remaining.length < f1 → s.remaining.length < f2 →
      runRoundsF pyhash mt tasks renderer f1 s = runRoundsF pyhash mt tasks renderer f2 s := by
  intro f1
  induction f1 with
  | zero =>
    intro f2 s h1 h2
    exact absurd h1 (Nat.not_lt_zero _)
  | succ f1 ih =>
    intro f2 s h1 h2
    cases f2 with
    | zero => exact absurd h2 (Nat.not_lt_zero _)
    | succ f2 =>
      rw [runRoundsF_succ, runRoundsF_succ]
      by_cases hrem : s.remaining = []
      · rw [if_pos hrem, if_pos hrem]
      · rw [if_neg hrem, if_neg hrem]
        by_cases hex : (classifyRound tasks s.ctx (sortNames s.remaining)
            s.dlq s.remaining []).2.2 = []
        · rw [if_pos hex, if_pos hex]
        · rw [if_neg hex, if_neg hex]
          have hprog := runRoundsF_progress pyhash mt tasks renderer s hex
          apply ih f2
          · exact Nat.lt_of_lt_of_le hprog (Nat.le_of_lt_succ h1)
          · exact Nat.lt_of_lt_of_le hprog (Nat.le_of_lt_succ h2)

/-! ### The sortNames output is sorted by the code-point order -/

theorem charListLe_total : ∀ a b : List Char,
    charListLe a b = true ∨ charListLe b a = true := by
  intro a
  induction a with
  | nil => intro b; left; rfl
  | cons c cs ih =>
    intro b
    cases b with
    | nil => right; rfl
    | cons d ds =>
      by_cases h1 : c.toNat < d.toNat
      · left
        simp [charListLe, h1]
      · by_cases h2 : d.toNat < c.toNat
        · right
          simp [charListLe, h2]
        · rcases ih ds with h | h
          · left
            simp [charListLe, h1, h2, h]
          · right
            simp [charListLe, h1, h2, h]

theorem charListLe_trans : ∀ a b c : List Char,
    charListLe a b = true → charListLe b c = true → charListLe a c = true := by
  intro a
  induction a with
  | nil => intro b c _ _; rfl
  | cons x xs ih =>
    intro b c hab hbc
    cases b with
    | nil => exact absurd hab (by simp [charListLe])
    | cons y ys =>
      cases c with
      | nil => exact absurd hbc (by simp [charListLe])
      | cons z zs =>
        by_cases hxy : x.toNat < y.toNat
        · by_cases hyz : y.toNat < z.toNat
          · simp [charListLe, show x.toNat < z.toNat by omega]
          · by_cases hzy : z.toNat < y.toNat
            · exfalso
              revert hbc
              simp [charListLe, hyz, hzy]
            · have hyz_eq : y.toNat = z.toNat := by omega
              simp [charListLe, show x.toNat < z.toNat by omega]
        · by_cases hyx : y.toNat < x.toNat
          · exfalso
            revert hab
            simp [charListLe, hxy, hyx]
          · have hxy_eq : x.toNat = y.toNat := by omega
            have hab2 : charListLe xs ys = true := by
              revert hab
              simp [charListLe, hxy, hyx]
            by_cases hyz : y.toNat < z.toNat
            · simp [charListLe, show x.toNat < z.toNat by omega]
            · by_cases hzy : z.toNat < y.toNat
              · exfalso
                revert hbc
                simp [charListLe, hyz, hzy]
              · have hbc2 : charListLe ys zs = true := by
                  revert hbc
                  simp [charListLe, hyz, hzy]
                have hxz1 : ¬x.toNat < z.toNat := by omega
                have hxz2 : ¬z.toNat < x.toNat := by omega
                simp [charListLe, hxz1, hxz2, ih ys zs hab2 hbc2]

theorem strLe_total (a b : String) : strLe a b = true ∨ strLe b a = true :=
  charListLe_total a.data b.data

theorem strLe_trans {a b c : String} (h1 : strLe a b = true) (h2 : strLe b c = true) :
    strLe a c = true :=
  charListLe_trans a.data b.data c.data h1 h2

theorem insertSorted_pairwise (n : String) (l : List String)
    (h : l.Pairwise (fun a b => strLe a b = true)) :
    (insertSorted n l).Pairwise (fun a b => strLe a b = true) := by
  induction l with
  | nil => simp [insertSorted]
  | cons m rest ih =>
    simp only [insertSorted]
    by_cases hle : strLe n m
    · rw [if_pos hle]
      refine List.Pairwise.cons ?_ h
      intro x hx
      rcases List.mem_cons.mp hx with hx | hx
      · rw [hx]
        exact hle
      · exact strLe_trans hle ((List.pairwise_cons.mp h).1 x hx)
    · rw [if_neg hle]
      obtain ⟨hm_rest, hrest⟩ := List.pairwise_cons.mp h
      refine List.Pairwise.cons ?_ (ih hrest)
      intro x hx
      have hx2 : x ∈ n :: rest := (perm_insertSorted n rest).subset hx
      rcases List.mem_cons.mp hx2 with hx2 | hx2
      · rw [hx2]
        rcases strLe_total n m with hh | hh
        · exact absurd hh hle
        · exact hh
      · exact hm_rest x hx2

/-- The sorted() model really sorts: its output is pairwise ordered by the
code-point string comparison. -/
theorem sortNames_pairwise (l : List String) :
    (sortNames l).Pairwise (fun a b => strLe a b = true) := by
  induction l with
  | nil => simp [sortNames]
  | cons n rest ih => exact insertSorted_pairwise n (sortNames rest) ih

/-! ### Fixed instances used by the concrete witnesses -/

/-- Fixed hash-function instance used by concrete witnesses (one possible
per-process value of the builtin string hash). -/
def hashW : String → ℤ := fun _ => 0

/-- Fixed random-stream instance used by concrete witnesses: every draw is
1/2, inside the documented [0, 1) range of random(). -/
def mtW : ℕ → ℕ → ℚ := fun _ _ => mkRat 1 2

/-- The witness stream satisfies the documented range contract of random(). -/
theorem mtW_range (s k : ℕ) : 0 ≤ mtW s k ∧ mtW s k < 1 :=
  ⟨by show (0 : ℚ) ≤ mkRat 1 2; decide, by show (mkRat 1 2 : ℚ) < 1; decide⟩

/-! ### Claim C4 -/

/-- C4: dependency gating.  For every task that reaches execution (position i
of the execution order), every declared dependency was executed strictly
earlier, is recorded COMPLETED, and exists in the task store; so a task
never begins while any dependency is pending, failed, or missing.  Recorded
results are write-once (runRoundsF_master results stability), so COMPLETED
in the final context is COMPLETED at the moment the task began. -/
theorem c4_dependency_gating (pyhash : String → ℤ) (mt : ℕ → ℕ → ℚ)
    (cfg : Config) (renderer : Option Renderer) (i : ℕ)
    (hi : i < (runFresh pyhash mt cfg renderer).execution_order.length)
    (task : Task)
    (htask : dictGet (parseConfig [] cfg)
      ((runFresh pyhash mt cfg renderer).execution_order.get ⟨i, hi⟩) = some task)
    (d : String) (hd : d ∈ task.dependencies) :
    d ∈ (runFresh pyhash mt cfg renderer).execution_order.take i ∧
      d ∈ (runFresh pyhash mt cfg renderer).completed_tasks ∧
      d ∈ dictKeys (parseConfig [] cfg) := by
  obtain ⟨hfin, _, _⟩ := finalState_facts pyhash mt cfg renderer
  obtain ⟨h1, h2⟩ := hfin.gating i hi task htask d hd
  have hnodup : ((finalState pyhash mt cfg renderer).ctx.task_results.map Prod.fst).Nodup := by
    rw [hfin.res_keys]
    exact hfin.exec_nodup
  obtain ⟨r, hr, hrs⟩ := is_task_completed_mem_results h2
  refine ⟨h1, ?_, ?_⟩
  · exact (mem_statusList hnodup).mpr ⟨r, hr, hrs⟩
  · exact hfin.exec_sub d (completed_mem_order hfin.res_keys h2)

/-- Concrete configuration for the C4 witness: task b depends on task a. -/
def cfgC4 : Config :=
  { seed := some 0,
    tasks := [ { name := "a" }, { name := "b", dependencies := some ["a"] } ] }

/-- Witness for C4 at a concrete run: task b executes at position 1 and its
dependency a appears earlier and completed. -/
theorem c4_dependency_gating_witness :
    "a" ∈ (runFresh hashW mtW cfgC4 none).execution_order.take 1 ∧
      "a" ∈ (runFresh hashW mtW cfgC4 none).completed_tasks ∧
      "a" ∈ dictKeys (parseConfig [] cfgC4) :=
  c4_dependency_gating hashW mtW cfgC4 none 1 (by decide)
    { name := "b", dependencies := ["a"], execution_time := 1, failure_rate := 0,
      status := TaskStatus.pending } (by decide) "a" (by decide)

/-! ### Claim C2 -/

/-- C2 counterexample: the claim "failure_rate = 0.0 always succeeds" fails
at a draw of exactly 0, which the draw contract [0, 1) of random() admits.
_execute_task compares with strict greater-than, so a zero draw against a
zero failure rate yields FAILED. -/
theorem c2_zero_draw_counterexample :
    (0 : ℚ) ≤ 0 ∧ (0 : ℚ) < 1 ∧
      (execTask (fun _ => 0) (fun _ _ => 0) { seed := 0, states := [] }
        { seed := 0 }
        { name := "a", dependencies := [], execution_time := 1, failure_rate := 0,
          status := TaskStatus.pending }).1.status = TaskStatus.failed := by
  refine ⟨le_refl 0, by decide, ?_⟩
  decide

/-- C2 as amended: an executed task is COMPLETED iff its draw is strictly
greater than its failure_rate; failure_rate = 1.0 always fails (draws are
below 1); failure_rate = 0.0 succeeds iff the draw is nonzero — a draw of
exactly 0, admitted by the [0, 1) contract, fails. -/
theorem c2_success_iff_draw (pyhash : String → ℤ) (mt : ℕ → ℕ → ℚ)
    (hrange : ∀ s k, 0 ≤ mt s k ∧ mt s k < 1)
    (cfg : Config) (renderer : Option Renderer) (n : String) (task : Task)
    (htask : dictGet (parseConfig [] cfg) n = some task)
    (hexec : n ∈ (runFresh pyhash mt cfg renderer).execution_order) :
    (n ∈ (runFresh pyhash mt cfg renderer).completed_tasks ↔
      taskDraw pyhash mt (cfg.seed.getD 42) n > task.failure_rate) ∧
    (task.failure_rate = 1 → n ∈ (runFresh pyhash mt cfg renderer).failed_tasks) ∧
    (task.failure_rate = 0 →
      (n ∈ (runFresh pyhash mt cfg renderer).completed_tasks ↔
        taskDraw pyhash mt (cfg.seed.getD 42) n ≠ 0)) := by
  obtain ⟨hfin, _, _⟩ := finalState_facts pyhash mt cfg renderer
  have hnodup : ((finalState pyhash mt cfg renderer).ctx.task_results.map Prod.fst).Nodup := by
    rw [hfin.res_keys]
    exact hfin.exec_nodup
  have hkeymem : n ∈ dictKeys (finalState pyhash mt cfg renderer).ctx.task_results := by
    show n ∈ (finalState pyhash mt cfg renderer).ctx.task_results.map Prod.fst
    rw [hfin.res_keys]
    exact hexec
  obtain ⟨r, hr⟩ := dictGet_isSome_of_mem_keys hkeymem
  obtain ⟨task2, htask2, hrval⟩ := hfin.res_val n r hr
  have htasks_eq : task2 = task := by
    rw [htask] at htask2
    exact (Option.some.inj htask2).symm
  rw [htasks_eq] at hrval
  set draw := taskDraw pyhash mt (cfg.seed.getD 42) n with hdraw_def
  have hmem_completed : n ∈ (runFresh pyhash mt cfg renderer).completed_tasks ↔
      r.status = TaskStatus.completed := by
    show n ∈ ((finalState pyhash mt cfg renderer).ctx.task_results.filter
      (fun p => decide (p.2.status = TaskStatus.completed))).map Prod.fst ↔ _
    rw [mem_statusList hnodup]
    constructor
    · intro ⟨r2, hr2, hr2s⟩
      rw [hr] at hr2
      rw [Option.some.inj hr2]
      exact hr2s
    · intro hs
      exact ⟨r, hr, hs⟩
  have hmem_failed : n ∈ (runFresh pyhash mt cfg renderer).failed_tasks ↔
      r.status = TaskStatus.failed := by
    show n ∈ ((finalState pyhash mt cfg renderer).ctx.task_results.filter
      (fun p => decide (p.2.status = TaskStatus.failed))).map Prod.fst ↔ _
    rw [mem_statusList hnodup]
    constructor
    · intro ⟨r2, hr2, hr2s⟩
      rw [hr] at hr2
      rw [Option.some.inj hr2]
      exact hr2s
    · intro hs
      exact ⟨r, hr, hs⟩
  have hstatus : r.status =
      (if decide (draw > task.failure_rate) then TaskStatus.completed
       else TaskStatus.failed) := by
    rw [hrval]
    rfl
  refine ⟨?_, ?_, ?_⟩
  · rw [hmem_completed, hstatus]
    by_cases hgt : draw > task.failure_rate
    · rw [if_pos (decide_eq_true hgt)]
      exact iff_of_true rfl hgt
    · rw [if_neg (by simpa [decide_eq_true_eq] using hgt)]
      exact iff_of_false (fun hc => TaskStatus.noConfusion hc) hgt
  · intro hrate
    rw [hmem_failed, hstatus]
    have hlt : draw < 1 := (hrange _ _).2
    have hnot : ¬draw > task.failure_rate := by
      rw [hrate]
      exact not_lt.mpr (le_of_lt hlt)
    rw [if_neg (by simpa [decide_eq_true_eq] using hnot)]
  · intro hrate
    rw [hmem_completed, hstatus]
    have h0 : 0 ≤ draw := (hrange _ _).1
    by_cases hgt : draw > task.failure_rate
    · rw [if_pos (decide_eq_true hgt)]
      have hne : draw ≠ 0 := by
        rw [hrate] at hgt
        exact ne_of_gt hgt
      exact iff_of_true rfl hne
    · rw [if_neg (by simpa [decide_eq_true_eq] using hgt)]
      have heq : draw = 0 := by
        rw [hrate] at hgt
        exact le_antisymm (not_lt.mp hgt) h0
      exact iff_of_false (fun hc => TaskStatus.noConfusion hc) (fun hne => hne heq)

/-- Concrete configuration for the C2 witness: a single task with
failure_rate 0. -/
def cfgC2 : Config :=
  { seed := some 0, tasks := [ { name := "a" } ] }

/-- Witness for C2 (amended) at a concrete run with a draw of 1/2. -/
theorem c2_success_iff_draw_witness :
    ("a" ∈ (runFresh hashW mtW cfgC2 none).completed_tasks ↔
      taskDraw hashW mtW (cfgC2.seed.getD 42) "a" > (0 : ℚ)) ∧
    ((0 : ℚ) = 1 → "a" ∈ (runFresh hashW mtW cfgC2 none).failed_tasks) ∧
    ((0 : ℚ) = 0 →
      ("a" ∈ (runFresh hashW mtW cfgC2 none).completed_tasks ↔
        taskDraw hashW mtW (cfgC2.seed.getD 42) "a" ≠ 0)) :=
  c2_success_iff_draw hashW mtW mtW_range cfgC2 none "a"
    { name := "a", dependencies := [], execution_time := 1, failure_rate := 0,
      status := TaskStatus.pending } (by decide) (by decide)

/-! ### Claim C9 -/

/-- C9: DLQ timestamps.  The i-th DLQ entry of a run carries timestamp
seed + i * (1/1000): the counter starts at 0 and increments by one per
recorded entry, with fixed epsilon 0.001; hence timestamps strictly
increase in insertion order. -/
theorem c9_dlq_timestamps (pyhash : String → ℤ) (mt : ℕ → ℕ → ℚ)
    (cfg : Config) (renderer : Option Renderer) :
    (∀ i : ℕ, ∀ hi : i < (runFresh pyhash mt cfg renderer).dlq.length,
      ((runFresh pyhash mt cfg renderer).dlq.get ⟨i, hi⟩).timestamp =
        ((cfg.seed.getD 42 : ℤ) : ℚ) + (i : ℚ) * (1 / 1000)) ∧
    (∀ i j : ℕ, ∀ hi : i < (runFresh pyhash mt cfg renderer).dlq.length,
      ∀ hj : j < (runFresh pyhash mt cfg renderer).dlq.length, i < j →
      ((runFresh pyhash mt cfg renderer).dlq.get ⟨i, hi⟩).timestamp <
        ((runFresh pyhash mt cfg renderer).dlq.get ⟨j, hj⟩).timestamp) := by
  obtain ⟨hfin, _, _⟩ := finalState_facts pyhash mt cfg renderer
  have heps : epsilonTS = 1 / 1000 := by
    rw [epsilonTS, Rat.mkRat_eq_div]
    norm_num
  obtain ⟨hcount, hts⟩ := hfin.ts
  have hfml : ∀ i : ℕ, ∀ hi : i < (finalState pyhash mt cfg renderer).dlq.failures.length,
      (((finalState pyhash mt cfg renderer).dlq.failures.get ⟨i, hi⟩).timestamp =
        ((cfg.seed.getD 42 : ℤ) : ℚ) + (i : ℚ) * (1 / 1000)) := by
    intro i hi
    rw [hts i hi, hfin.dlq_seed, heps]
  refine ⟨fun i hi => hfml i hi, ?_⟩
  intro i j hi hj hij
  rw [show ((runFresh pyhash mt cfg renderer).dlq.get ⟨i, hi⟩).timestamp =
    ((cfg.seed.getD 42 : ℤ) : ℚ) + (i : ℚ) * (1 / 1000) from hfml i hi]
  rw [show ((runFresh pyhash mt cfg renderer).dlq.get ⟨j, hj⟩).timestamp =
    ((cfg.seed.getD 42 : ℤ) : ℚ) + (j : ℚ) * (1 / 1000) from hfml j hj]
  have hlt : (i : ℚ) < (j : ℚ) := by exact_mod_cast hij
  have hpos : (0 : ℚ) < 1 / 1000 := by norm_num
  have := mul_lt_mul_of_pos_right hlt hpos
  linarith

/-- Concrete configuration for the C9 witness: a two-task cycle yields two
DLQ entries. -/
def cfgC9 : Config :=
  { seed := some 5,
    tasks := [ { name := "a", dependencies := some ["b"] },
               { name := "b", dependencies := some ["a"] } ] }

/-- Witness for C9 at a concrete run: the first entry has timestamp
seed + 0 * epsilon and the timestamps are strictly increasing. -/
theorem c9_dlq_timestamps_witness :
    ((runFresh hashW mtW cfgC9 none).dlq.get ⟨0, by decide⟩).timestamp =
      ((cfgC9.seed.getD 42 : ℤ) : ℚ) + ((0 : ℕ) : ℚ) * (1 / 1000) ∧
    ((runFresh hashW mtW cfgC9 none).dlq.get ⟨0, by decide⟩).timestamp <
      ((runFresh hashW mtW cfgC9 none).dlq.get ⟨1, by decide⟩).timestamp :=
  ⟨(c9_dlq_timestamps hashW mtW cfgC9 none).1 0 (by decide),
   (c9_dlq_timestamps hashW mtW cfgC9 none).2 0 1 (by decide) (by decide) (by decide)⟩

/-! ### Claim C8 -/

/-- C8: stochastic versus structural separation.  A task with
failure_rate = 1.0 and no dependencies executes (it is on the first
frontier), lands in failed_tasks because every draw is below 1, and never
receives a DLQ entry: stochastic failure is a FAILED task result, not a DLQ
event. -/
theorem c8_stochastic_not_dlq (pyhash : String → ℤ) (mt : ℕ → ℕ → ℚ)
    (hrange : ∀ s k, 0 ≤ mt s k ∧ mt s k < 1)
    (cfg : Config) (renderer : Option Renderer) (n : String) (task : Task)
    (htask : dictGet (parseConfig [] cfg) n = some task)
    (hdeps : task.dependencies = []) (hrate : task.failure_rate = 1) :
    n ∈ (runFresh pyhash mt cfg renderer).failed_tasks ∧
      n ∈ (runFresh pyhash mt cfg renderer).execution_order ∧
      ∀ e ∈ (runFresh pyhash mt cfg renderer).dlq, e.task ≠ n := by
  obtain ⟨hfin, _, _⟩ := finalState_facts pyhash mt cfg renderer
  have hfro : classifyName (parseConfig [] cfg)
      { seed := cfg.seed.getD 42, task_results := [], execution_order := [], dlq := [] }
      n = Classify.frontier := by
    refine classifyName_frontier_intro htask ?_
    rw [hdeps]
    intro d hd
    exact absurd hd (List.not_mem_nil d)
  have hn_rem : n ∈ dictKeys (parseConfig [] cfg) := dictGet_mem_keys htask
  have hexec : n ∈ (finalState pyhash mt cfg renderer).ctx.execution_order :=
    runRoundsF_frontier_executes pyhash mt (parseConfig [] cfg) renderer
      (dictKeys (parseConfig [] cfg)).length _ hn_rem hfro
  have hnodup : ((finalState pyhash mt cfg renderer).ctx.task_results.map Prod.fst).Nodup := by
    rw [hfin.res_keys]
    exact hfin.exec_nodup
  have hkeymem : n ∈ dictKeys (finalState pyhash mt cfg renderer).ctx.task_results := by
    show n ∈ (finalState pyhash mt cfg renderer).ctx.task_results.map Prod.fst
    rw [hfin.res_keys]
    exact hexec
  obtain ⟨r, hr⟩ := dictGet_isSome_of_mem_keys hkeymem
  obtain ⟨task2, htask2, hrval⟩ := hfin.res_val n r hr
  have htasks_eq : task2 = task := by
    rw [htask] at htask2
    exact (Option.some.inj htask2).symm
  rw [htasks_eq] at hrval
  have hstatus : r.status = TaskStatus.failed := by
    rw [hrval]
    show (if decide (taskDraw pyhash mt (cfg.seed.getD 42) n > task.failure_rate)
      then TaskStatus.completed else TaskStatus.failed) = TaskStatus.failed
    have hnot : ¬taskDraw pyhash mt (cfg.seed.getD 42) n > task.failure_rate := by
      rw [hrate]
      exact not_lt.mpr (le_of_lt (hrange _ _).2)
    rw [if_neg (by simpa [decide_eq_true_eq] using hnot)]
  refine ⟨(mem_statusList hnodup).mpr ⟨r, hr, hstatus⟩, hexec, ?_⟩
  intro e he hc
  rw [← hc] at hexec
  exact hfin.dlq_not_exec e he hexec

/-- Concrete configuration for the C8 witness: a lone task that always
fails stochastically. -/
def cfgC8 : Config :=
  { seed := some 0, tasks := [ { name := "a", failure_rate := some 1 } ] }

/-- Witness for C8 at a concrete run. -/
theorem c8_stochastic_not_dlq_witness :
    "a" ∈ (runFresh hashW mtW cfgC8 none).failed_tasks ∧
      "a" ∈ (runFresh hashW mtW cfgC8 none).execution_order ∧
      ∀ e ∈ (runFresh hashW mtW cfgC8 none).dlq, e.task ≠ "a" :=
  c8_stochastic_not_dlq hashW mtW mtW_range cfgC8 none "a"
    { name := "a", dependencies := [], execution_time := 1, failure_rate := 1,
      status := TaskStatus.pending } (by decide) (by decide) (by decide)

/-! ### Claim C7 -/

/-- C7: missing-dependency containment.  A task declaring a dependency
absent from the store is recorded in the DLQ exactly once — in the round
where this is detected, with the reason string "Missing dependencies: "
naming exactly the missing dependency names — and it never appears in
execution_order. -/
theorem c7_missing_dependency (pyhash : String → ℤ) (mt : ℕ → ℕ → ℚ)
    (cfg : Config) (renderer : Option Renderer) (n : String) (task : Task)
    (htask : dictGet (parseConfig [] cfg) n = some task)
    (d : String) (hd : d ∈ task.dependencies)
    (hmiss : d ∉ dictKeys (parseConfig [] cfg)) :
    ((runFresh pyhash mt cfg renderer).dlq.filter
        (fun e => decide (e.task = n))).map (fun e => e.reason) =
      [missingMsg (task.dependencies.filter
        (fun d2 => (dictGet (parseConfig [] cfg) d2).isNone))] ∧
    n ∉ (runFresh pyhash mt cfg renderer).execution_order := by
  obtain ⟨hfin, _, ⟨M, hM, hMfacts⟩⟩ := finalState_facts pyhash mt cfg renderer
  have hdnone : dictGet (parseConfig [] cfg) d = none := dictGet_none_iff.mpr hmiss
  have hfilter_ne : task.dependencies.filter
      (fun d2 => (dictGet (parseConfig [] cfg) d2).isNone) ≠ [] := by
    refine List.ne_nil_of_mem (List.mem_filter.mpr ⟨hd, ?_⟩)
    simp [hdnone]
  have hb : ∀ c : ExecutionContext, classifyName (parseConfig [] cfg) c n =
      Classify.blocked (missingMsg (task.dependencies.filter
        (fun d2 => (dictGet (parseConfig [] cfg) d2).isNone))) :=
    fun c => classifyName_missing_intro c htask hfilter_ne
  have hn_rem : n ∈ dictKeys (parseConfig [] cfg) := dictGet_mem_keys htask
  obtain ⟨e, he, he_task, he_reason⟩ := runRoundsF_blocked_entry pyhash mt
    (parseConfig [] cfg) renderer (dictKeys (parseConfig [] cfg)).length
    { rnd := { seed := cfg.seed.getD 42, states := [] },
      dlq := { failures := [], seed := cfg.seed.getD 42, counter := 0 },
      ctx := { seed := cfg.seed.getD 42, task_results := [],
               execution_order := [], dlq := [] },
      remaining := dictKeys (parseConfig [] cfg) }
    hn_rem (hb _)
  constructor
  · have hsingle := filter_task_singleton hfin.dlq_nodup he he_task
    show ((finalState pyhash mt cfg renderer).dlq.failures.filter
      (fun e => decide (e.task = n))).map (fun e => e.reason) = _
    rw [hsingle]
    simp [he_reason]
  · intro hc
    have hcM : n ∈ M := by rw [← hM]; exact hc
    obtain ⟨_, c, hfro⟩ := hMfacts n hcM
    rw [hb c] at hfro
    exact Classify.noConfusion hfro

/-- Concrete configuration for the C7 witness: task_c declares the
undeclared dependency ghost. -/
def cfgC7 : Config :=
  { seed := some 0, tasks := [ { name := "task_c", dependencies := some ["ghost"] } ] }

/-- Witness for C7 at a concrete run. -/
theorem c7_missing_dependency_witness :
    ((runFresh hashW mtW cfgC7 none).dlq.filter
        (fun e => decide (e.task = "task_c"))).map (fun e => e.reason) =
      [missingMsg ((["ghost"] : List String).filter
        (fun d2 => (dictGet (parseConfig [] cfgC7) d2).isNone))] ∧
    "task_c" ∉ (runFresh hashW mtW cfgC7 none).execution_order :=
  c7_missing_dependency hashW mtW cfgC7 none "task_c"
    { name := "task_c", dependencies := ["ghost"], execution_time := 1,
      failure_rate := 0, status := TaskStatus.pending }
    (by decide) "ghost" (by decide) (by decide)

/-! ### Claim C10 -/

/-- C10: missing dependencies take precedence over failed ones.  For a task
declaring both a dependency absent from the store and a dependency that
executes and fails (here forced by failure_rate 1 and no dependencies of its
own), the task receives exactly one DLQ entry, whose reason names only the
missing dependencies; no separate Failed-dependencies entry is recorded.
In the code the missing-check fires first and removes the task in the very
first classification pass, before any dependency even has a result. -/
theorem c10_missing_precedence (pyhash : String → ℤ) (mt : ℕ → ℕ → ℚ)
    (hrange : ∀ s k, 0 ≤ mt s k ∧ mt s k < 1)
    (cfg : Config) (renderer : Option Renderer) (n : String) (task : Task)
    (htask : dictGet (parseConfig [] cfg) n = some task)
    (d : String) (hd : d ∈ task.dependencies)
    (hmiss : d ∉ dictKeys (parseConfig [] cfg))
    (f : String) (ftask : Task) (_hf : f ∈ task.dependencies)
    (hftask : dictGet (parseConfig [] cfg) f = some ftask)
    (hfdeps : ftask.dependencies = []) (hfrate : ftask.failure_rate = 1) :
    f ∈ (runFresh pyhash mt cfg renderer).failed_tasks ∧
    ((runFresh pyhash mt cfg renderer).dlq.filter
        (fun e => decide (e.task = n))).length = 1 ∧
    ((runFresh pyhash mt cfg renderer).dlq.filter
        (fun e => decide (e.task = n))).map (fun e => e.reason) =
      [missingMsg (task.dependencies.filter
        (fun d2 => (dictGet (parseConfig [] cfg) d2).isNone))] := by
  obtain ⟨hfin, _, _⟩ := finalState_facts pyhash mt cfg renderer
  have hnodup : ((finalState pyhash mt cfg renderer).ctx.task_results.map Prod.fst).Nodup := by
    rw [hfin.res_keys]
    exact hfin.exec_nodup
  -- the failed dependency f really executes and fails
  have hffro : classifyName (parseConfig [] cfg)
      { seed := cfg.seed.getD 42, task_results := [], execution_order := [], dlq := [] }
      f = Classify.frontier := by
    refine classifyName_frontier_intro hftask ?_
    rw [hfdeps]
    intro d2 hd2
    exact absurd hd2 (List.not_mem_nil d2)
  have hf_exec : f ∈ (finalState pyhash mt cfg renderer).ctx.execution_order :=
    runRoundsF_frontier_executes pyhash mt (parseConfig [] cfg) renderer
      (dictKeys (parseConfig [] cfg)).length _ (dictGet_mem_keys hftask) hffro
  have hf_key : f ∈ dictKeys (finalState pyhash mt cfg renderer).ctx.task_results := by
    show f ∈ (finalState pyhash mt cfg renderer).ctx.task_results.map Prod.fst
    rw [hfin.res_keys]
    exact hf_exec
  obtain ⟨r, hr⟩ := dictGet_isSome_of_mem_keys hf_key
  obtain ⟨ftask2, hftask2, hrval⟩ := hfin.res_val f r hr
  have hftasks_eq : ftask2 = ftask := by
    rw [hftask] at hftask2
    exact (Option.some.inj hftask2).symm
  rw [hftasks_eq] at hrval
  have hstatus : r.status = TaskStatus.failed := by
    rw [hrval]
    show (if decide (taskDraw pyhash mt (cfg.seed.getD 42) f > ftask.failure_rate)
      then TaskStatus.completed else TaskStatus.failed) = TaskStatus.failed
    have hnot : ¬taskDraw pyhash mt (cfg.seed.getD 42) f > ftask.failure_rate := by
      rw [hfrate]
      exact not_lt.mpr (le_of_lt (hrange _ _).2)
    rw [if_neg (by simpa [decide_eq_true_eq] using hnot)]
  -- the single DLQ entry for n, with the missing-only reason
  have hdnone : dictGet (parseConfig [] cfg) d = none := dictGet_none_iff.mpr hmiss
  have hfilter_ne : task.dependencies.filter
      (fun d2 => (dictGet (parseConfig [] cfg) d2).isNone) ≠ [] := by
    refine List.ne_nil_of_mem (List.mem_filter.mpr ⟨hd, ?_⟩)
    simp [hdnone]
  obtain ⟨e, he, he_task, he_reason⟩ := runRoundsF_blocked_entry pyhash mt
    (parseConfig [] cfg) renderer (dictKeys (parseConfig [] cfg)).length
    { rnd := { seed := cfg.seed.getD 42, states := [] },
      dlq := { failures := [], seed := cfg.seed.getD 42, counter := 0 },
      ctx := { seed := cfg.seed.getD 42, task_results := [],
               execution_order := [], dlq := [] },
      remaining := dictKeys (parseConfig [] cfg) }
    (dictGet_mem_keys htask)
    (classifyName_missing_intro _ htask hfilter_ne)
  have hsingle := filter_task_singleton hfin.dlq_nodup he he_task
  refine ⟨(mem_statusList hnodup).mpr ⟨r, hr, hstatus⟩, ?_, ?_⟩
  · show ((finalState pyhash mt cfg renderer).dlq.failures.filter
      (fun e => decide (e.task = n))).length = 1
    rw [hsingle]
    rfl
  · show ((finalState pyhash mt cfg renderer).dlq.failures.filter
      (fun e => decide (e.task = n))).map (fun e => e.reason) = _
    rw [hsingle]
    simp [he_reason]

/-- Concrete configuration for the C10 witness: task t depends both on the
undeclared ghost and on f, which always fails. -/
def cfgC10 : Config :=
  { seed := some 0,
    tasks := [ { name := "f", failure_rate := some 1 },
               { name := "t", dependencies := some ["ghost", "f"] } ] }

/-- Witness for C10 at a concrete run. -/
theorem c10_missing_precedence_witness :
    "f" ∈ (runFresh hashW mtW cfgC10 none).failed_tasks ∧
    ((runFresh hashW mtW cfgC10 none).dlq.filter
        (fun e => decide (e.task = "t"))).length = 1 ∧
    ((runFresh hashW mtW cfgC10 none).dlq.filter
        (fun e => decide (e.task = "t"))).map (fun e => e.reason) =
      [missingMsg ((["ghost", "f"] : List String).filter
        (fun d2 => (dictGet (parseConfig [] cfgC10) d2).isNone))] :=
  c10_missing_precedence hashW mtW mtW_range cfgC10 none "t"
    { name := "t", dependencies := ["ghost", "f"], execution_time := 1,
      failure_rate := 0, status := TaskStatus.pending }
    (by decide) "ghost" (by decide) (by decide) "f"
    { name := "f", dependencies := [], execution_time := 1, failure_rate := 1,
      status := TaskStatus.pending }
    (by decide) (by decide) (by decide) (by decide)

/-! ### Claim C6 -/

theorem flushProjTasks {L2 : List DLQEntry} {names : List String}
    (hmap : L2.map entryKey = names.map (fun n => (n, circularMsg))) :
    L2.map (fun e => e.task) = names := by
  rw [listMapTaskEntryKey, hmap, List.map_map]
  exact List.map_id _

/-- C6: deadlock / cycle handling.  In any round whose classification pass
yields an empty executable set while tasks remain, the loop stops right
there: the final state is the current one with every still-remaining task
flushed to the DLQ — exactly once each, with the cyclic/unresolvable
reason, in sorted lexicographic order — and none of them ever appears in
execution_order.  Two tasks depending on each other are exactly such a
round (see the witness). -/
theorem c6_deadlock_round (pyhash : String → ℤ) (mt : ℕ → ℕ → ℚ)
    {tasks : List (String × Task)} {seed : ℤ} (renderer : Option Renderer)
    (fuel : ℕ) (s : SchedState) (hinv : Inv pyhash mt tasks seed s)
    (hrem : s.remaining ≠ [])
    (hcl : (classifyRound tasks s.ctx (sortNames s.remaining)
      s.dlq s.remaining []).2.2 = []) :
    (runRoundsF pyhash mt tasks renderer (fuel + 1) s =
      { s with
        dlq := dlqFlush
          (classifyRound tasks s.ctx (sortNames s.remaining) s.dlq s.remaining []).1
          (sortNames (classifyRound tasks s.ctx (sortNames s.remaining)
            s.dlq s.remaining []).2.1),
        remaining := (classifyRound tasks s.ctx (sortNames s.remaining)
          s.dlq s.remaining []).2.1 }) ∧
    (runRoundsF pyhash mt tasks renderer (fuel + 1) s).ctx.execution_order =
      s.ctx.execution_order ∧
    (∃ L2, (runRoundsF pyhash mt tasks renderer (fuel + 1) s).dlq.failures =
        (classifyRound tasks s.ctx (sortNames s.remaining) s.dlq s.remaining []).1.failures
          ++ L2 ∧
      L2.map entryKey = (sortNames (classifyRound tasks s.ctx (sortNames s.remaining)
        s.dlq s.remaining []).2.1).map (fun m => (m, circularMsg))) ∧
    ∀ m ∈ (classifyRound tasks s.ctx (sortNames s.remaining) s.dlq s.remaining []).2.1,
      ((runRoundsF pyhash mt tasks renderer (fuel + 1) s).dlq.failures.filter
        (fun e => decide (e.task = m))).length = 1 ∧
      m ∉ (runRoundsF pyhash mt tasks renderer (fuel + 1) s).ctx.execution_order := by
  obtain ⟨hmid, _, _, _⟩ := classify_mid_inv pyhash mt hinv
  have heq : runRoundsF pyhash mt tasks renderer (fuel + 1) s =
      { s with
        dlq := dlqFlush
          (classifyRound tasks s.ctx (sortNames s.remaining) s.dlq s.remaining []).1
          (sortNames (classifyRound tasks s.ctx (sortNames s.remaining)
            s.dlq s.remaining []).2.1),
        remaining := (classifyRound tasks s.ctx (sortNames s.remaining)
          s.dlq s.remaining []).2.1 } := by
    rw [runRoundsF_succ, if_neg hrem, if_pos hcl]
  obtain ⟨L2, hL2, hmap2⟩ := dlqFlush_failures
    (classifyRound tasks s.ctx (sortNames s.remaining) s.dlq s.remaining []).1
    (sortNames (classifyRound tasks s.ctx (sortNames s.remaining)
      s.dlq s.remaining []).2.1)
  have hL2tasks : L2.map (fun e => e.task) =
      sortNames (classifyRound tasks s.ctx (sortNames s.remaining)
        s.dlq s.remaining []).2.1 := flushProjTasks hmap2
  refine ⟨heq, by rw [heq], ⟨L2, by rw [heq]; exact hL2, hmap2⟩, ?_⟩
  intro m hm
  constructor
  · rw [heq]
    show ((dlqFlush (classifyRound tasks s.ctx (sortNames s.remaining)
      s.dlq s.remaining []).1 (sortNames (classifyRound tasks s.ctx
      (sortNames s.remaining) s.dlq s.remaining []).2.1)).failures.filter
      (fun e => decide (e.task = m))).length = 1
    rw [hL2, List.filter_append]
    have hmidnil : ((classifyRound tasks s.ctx (sortNames s.remaining)
        s.dlq s.remaining []).1.failures.filter (fun e => decide (e.task = m))) = [] := by
      rw [List.filter_eq_nil_iff]
      intro e he hc
      have hem : e.task = m := of_decide_eq_true hc
      have hmem : e.task ∈ (classifyRound tasks s.ctx (sortNames s.remaining)
          s.dlq s.remaining []).2.1 := by
        rw [hem]
        exact hm
      exact hmid.dlq_not_rem e he hmem
    rw [hmidnil, List.nil_append]
    have hmem_tasks : m ∈ L2.map (fun e => e.task) := by
      rw [hL2tasks]
      exact mem_sortNames.mpr hm
    obtain ⟨e0, he0, he0t⟩ := List.mem_map.mp hmem_tasks
    have hL2nodup : (L2.map (fun e => e.task)).Nodup := by
      rw [hL2tasks]
      exact nodup_sortNames hmid.cinv.rem_nodup
    rw [filter_task_singleton hL2nodup he0 he0t]
    rfl
  · rw [heq]
    exact hmid.cinv.rem_fresh m hm

/-- Concrete configuration for the C6 witness: the two-task cycle. -/
def cfgC6 : Config :=
  { seed := some 7,
    tasks := [ { name := "a", dependencies := some ["b"] },
               { name := "b", dependencies := some ["a"] } ] }

/-- The scheduler state at the start of a fresh run of cfgC6. -/
def stateC6 : SchedState :=
  { rnd := { seed := 7, states := [] },
    dlq := { failures := [], seed := 7, counter := 0 },
    ctx := { seed := 7, task_results := [], execution_order := [], dlq := [] },
    remaining := dictKeys (parseConfig [] cfgC6) }

/-- Witness for C6 at the mutual-dependency pair: neither task executes and
each is recorded exactly once; the run report shows both entries with the
cyclic reason, in sorted order, and an empty execution order. -/
theorem c6_deadlock_round_witness :
    (runRoundsF hashW mtW (parseConfig [] cfgC6) none (0 + 1) stateC6).ctx.execution_order
      = stateC6.ctx.execution_order ∧
    ((runRoundsF hashW mtW (parseConfig [] cfgC6) none (0 + 1) stateC6).dlq.failures.filter
      (fun e => decide (e.task = "a"))).length = 1 ∧
    "a" ∉ (runRoundsF hashW mtW (parseConfig [] cfgC6) none (0 + 1) stateC6).ctx.execution_order ∧
    ((runRoundsF hashW mtW (parseConfig [] cfgC6) none (0 + 1) stateC6).dlq.failures.filter
      (fun e => decide (e.task = "b"))).length = 1 ∧
    "b" ∉ (runRoundsF hashW mtW (parseConfig [] cfgC6) none (0 + 1) stateC6).ctx.execution_order ∧
    (runFresh hashW mtW cfgC6 none).dlq.map entryKey =
      [("a", circularMsg), ("b", circularMsg)] ∧
    (runFresh hashW mtW cfgC6 none).execution_order = [] :=
  ⟨(c6_deadlock_round hashW mtW none 0 stateC6
      (initial_inv hashW mtW 7 (by decide)) (by decide) (by decide)).2.1,
   ((c6_deadlock_round hashW mtW none 0 stateC6
      (initial_inv hashW mtW 7 (by decide)) (by decide) (by decide)).2.2.2 "a" (by decide)).1,
   ((c6_deadlock_round hashW mtW none 0 stateC6
      (initial_inv hashW mtW 7 (by decide)) (by decide) (by decide)).2.2.2 "a" (by decide)).2,
   ((c6_deadlock_round hashW mtW none 0 stateC6
      (initial_inv hashW mtW 7 (by decide)) (by decide) (by decide)).2.2.2 "b" (by decide)).1,
   ((c6_deadlock_round hashW mtW none 0 stateC6
      (initial_inv hashW mtW 7 (by decide)) (by decide) (by decide)).2.2.2 "b" (by decide)).2,
   by decide, by decide⟩

/-! ### Claim C5 -/

/-- C5: renderer isolation.  A ConsoleRenderer set to fail on a given task
name raises from its task_started hook (likewise task_completed and
task_failed), yet the run report is identical for any two renderers —
including the always-raising one versus none at all: the call-site catch
makes every hook outcome inert. -/
theorem c5_renderer_isolation (pyhash : String → ℤ) (mt : ℕ → ℕ → ℚ)
    (cfg : Config) (name : String) :
    (ConsoleRenderer.task_started { enabled := true, fail_on_task := some name } name =
      Except.error "Intentional renderer failure") ∧
    (ConsoleRenderer.task_completed { enabled := true, fail_on_task := some name } name =
      Except.error "Intentional renderer failure") ∧
    (ConsoleRenderer.task_failed { enabled := true, fail_on_task := some name } name =
      Except.error "Intentional renderer failure") ∧
    (∀ r1 r2 : Option Renderer, runFresh pyhash mt cfg r1 = runFresh pyhash mt cfg r2) ∧
    runFresh pyhash mt cfg
        (some (ConsoleRenderer.toRenderer { enabled := true, fail_on_task := some name })) =
      runFresh pyhash mt cfg none := by
  refine ⟨?_, ?_, ?_, runFresh_renderer_irrelevant pyhash mt cfg,
    runFresh_renderer_irrelevant pyhash mt cfg _ _⟩
  · simp [ConsoleRenderer.task_started]
  · simp [ConsoleRenderer.task_completed]
  · simp [ConsoleRenderer.task_failed]

/-! ### Claim C3 -/

/-- First configuration of the C3 leak scenario: one task named a. -/
def cfgC3a : Config :=
  { seed := some 42, tasks := [ { name := "a", failure_rate := some 1 } ] }

/-- Second configuration of the C3 leak scenario: one task named b. -/
def cfgC3b : Config :=
  { seed := some 42, tasks := [ { name := "b", failure_rate := some 1 } ] }

/-- C3 refuted on the code: run() recreates the DeterministicRandom and the
DLQSystem each call, but _parse_config only inserts into the persistent
self.tasks dict and never clears it.  Running cfgC3a and then cfgC3b on the
same engine makes the second run still contain (and re-execute) task a:
its report lists two tasks and execution order [a, b], whereas a fresh
engine run of cfgC3b lists one task and [b] — for every hash function and
every random stream. -/
theorem c3_task_store_leaks (pyhash : String → ℤ) (mt : ℕ → ℕ → ℚ) :
    ((PipelineEngine.run pyhash mt
        (PipelineEngine.run pyhash mt { tasks := [] } cfgC3a none).2
        cfgC3b none).1.execution_order = ["a", "b"]) ∧
    ((PipelineEngine.run pyhash mt { tasks := [] } cfgC3b none).1.execution_order
      = ["b"]) ∧
    ((PipelineEngine.run pyhash mt
        (PipelineEngine.run pyhash mt { tasks := [] } cfgC3a none).2
        cfgC3b none).1.summary.total_tasks = 2) ∧
    ((PipelineEngine.run pyhash mt { tasks := [] } cfgC3b none).1.summary.total_tasks
      = 1) ∧
    (PipelineEngine.run pyhash mt
        (PipelineEngine.run pyhash mt { tasks := [] } cfgC3a none).2
        cfgC3b none).1 ≠
      (PipelineEngine.run pyhash mt { tasks := [] } cfgC3b none).1 := by
  refine ⟨rfl, rfl, rfl, rfl, ?_⟩
  intro heq
  have h2 : (["a", "b"] : List String) = ["b"] := by
    calc (["a", "b"] : List String)
        = (PipelineEngine.run pyhash mt
            (PipelineEngine.run pyhash mt { tasks := [] } cfgC3a none).2
            cfgC3b none).1.execution_order := rfl
      _ = (PipelineEngine.run pyhash mt { tasks := [] } cfgC3b none).1.execution_order :=
          congrArg Report.execution_order heq
      _ = ["b"] := rfl
  exact absurd h2 (by decide)

/-! ### Claim C1 -/

/-- C1 refuted on the code: the per-(seed, key) generator seed — and with it
the Mersenne-Twister stream a task draw is taken from — depends on the
value of the builtin string hash, which CPython randomizes per process
(PYTHONHASHSEED).  Two processes whose hash functions differ on the key
derive different generator seeds for the same (seed, key) pair, so the
per-task draw, and with it the serialized report of any config whose
outcome depends on a draw, can differ across repeated runs. -/
theorem c1_draw_depends_on_hash :
    (contextSeedFor (fun _ => 0) 0 "a" ≠ contextSeedFor (fun _ => 1) 0 "a") ∧
    (∀ mt : ℕ → ℕ → ℚ, ∀ seed : ℤ, ∀ n : String,
      taskDraw (fun _ => 0) mt seed n = mt (contextSeedFor (fun _ => 0) seed n) 0 ∧
      taskDraw (fun _ => 1) mt seed n = mt (contextSeedFor (fun _ => 1) seed n) 0) ∧
    ((DeterministicRandom.get_rng (fun _ => 0)
      { seed := 0, states := [] } "0:a").1.rngSeed = 0) ∧
    ((DeterministicRandom.get_rng (fun _ => 1)
      { seed := 0, states := [] } "0:a").1.rngSeed = 1) := by
  exact ⟨by decide, fun mt seed n => ⟨rfl, rfl⟩, by decide, by decide⟩

end PipelineSpec
